import Mathlib

/- Verification development for the treap ordered-set library (treaps.go).

   The Go code is embedded shallowly:
   * `Node` / the shared sentinel `nullNodePtr` become the inductive `Tree`,
     with `null` playing the sentinel; the stored `count` field is kept in the
     node (Go `int`, modelled by `ℤ`), priorities are `ℕ` (Go `uint64`, so the
     theorems carry the bound `pr ≤ maxPrio` where the code draws from the RNG).
   * The user-supplied comparator `Less` becomes a `LinearOrder` on the key
     type; Go's `__equal` ("neither less") is then propositional equality.
   * Pointer mutation becomes explicit state passing: helpers that mutate
     through `**Node` return the new subtree; functions that can `panic`
     return `Option` (with `none` for the panic), and functions returning
     Go `nil` interfaces return `Option` values.
   * The RNG is externalised: operations that draw a fresh priority take it
     as an argument. -/

set_option linter.unusedSectionVars false

namespace Treaps

/-- The node structure of the Go code.  `null` is the shared sentinel
`nullNodePtr`; `node` carries key, priority, the stored subtree count and
the two child links `llink`, `rlink`. -/
inductive Tree (α : Type) where
  | null : Tree α
  | node (key : α) (priority : ℕ) (count : ℤ) (llink rlink : Tree α) : Tree α
  deriving DecidableEq

open Tree

/-- `math.MaxUint64`, the priority stored in the sentinel. -/
def maxPrio : ℕ := 2 ^ 64 - 1

variable {α : Type} [LinearOrder α]

/-- The stored `count` field; the sentinel stores `0`. -/
def countv : Tree α → ℤ
  | null => 0
  | node _ _ c _ _ => c

/-- The stored `priority` field; the sentinel stores `math.MaxUint64`. -/
def prio : Tree α → ℕ
  | null => maxPrio
  | node _ p _ _ _ => p

/-- Inorder sequence of keys of a subtree. -/
def keys : Tree α → List α
  | null => []
  | node k _ _ l r => keys l ++ k :: keys r

/-- Actual number of nodes (as opposed to the stored `count`). -/
def numNodes : Tree α → ℕ
  | null => 0
  | node _ _ _ l r => numNodes l + numNodes r + 1

/-- Multiset of all stored priorities. -/
def prios : Tree α → Multiset ℕ
  | null => 0
  | node _ p _ l r => p ::ₘ (prios l + prios r)

/-- `Size()` returns the stored count of the root. -/
def Size (t : Tree α) : ℤ := countv t

@[simp] theorem countv_null : countv (null : Tree α) = 0 := rfl

@[simp] theorem countv_node {k : α} {p : ℕ} {c : ℤ} {l r : Tree α} :
    countv (node k p c l r) = c := rfl

@[simp] theorem prio_null : prio (null : Tree α) = maxPrio := rfl

@[simp] theorem prio_node {k : α} {p : ℕ} {c : ℤ} {l r : Tree α} :
    prio (node k p c l r) = p := rfl

@[simp] theorem keys_null : keys (null : Tree α) = [] := rfl

@[simp] theorem keys_node {k : α} {p : ℕ} {c : ℤ} {l r : Tree α} :
    keys (node k p c l r) = keys l ++ k :: keys r := rfl

@[simp] theorem prios_null : prios (null : Tree α) = 0 := rfl

@[simp] theorem prios_node {k : α} {p : ℕ} {c : ℤ} {l r : Tree α} :
    prios (node k p c l r) = p ::ₘ (prios l + prios r) := rfl

/-- `rotateRight`: the left child becomes the root.  Counts are recomputed
exactly as in the Go code (`p.count -= 1 + q.llink.count;
q.count += 1 + p.rlink.count`).  The Go code only ever calls it with a real
left child; on any other shape we leave the tree unchanged. -/
def rotateRight : Tree α → Tree α
  | node pk pp pc (node qk qp qc ql qr) prr =>
      node qk qp (qc + 1 + countv prr) ql (node pk pp (pc - 1 - countv ql) qr prr)
  | t => t

/-- `rotateLeft`: mirror image of `rotateRight`. -/
def rotateLeft : Tree α → Tree α
  | node pk pp pc pl (node qk qp qc ql qr) =>
      node qk qp (qc + 1 + countv pl) (node pk pp (pc - 1 - countv qr) pl ql) qr
  | t => t

/-- `__insertNode`: recursive unique-key insertion of a fresh node with key
`k` and priority `pr`.  Returns `none` (the Go `nullNodePtr` result) when the
key is already present; in that case nothing has been mutated. -/
def insertNode : Tree α → α → ℕ → Option (Tree α)
  | null, k, pr => some (node k pr 1 null null)
  | node rk rp rc l r, k, pr =>
    if k < rk then
      match insertNode l k pr with
      | none => none
      | some res =>
          let root := node rk rp (rc + 1) res r
          some (if prio res < rp then rotateRight root else root)
    else if rk < k then
      match insertNode r k pr with
      | none => none
      | some res =>
          let root := node rk rp (rc + 1) l res
          some (if prio res < rp then rotateLeft root else root)
    else none

/-- `Insert`: returns the updated tree together with the Go return value
(`nil` ≍ `none` when the key was already present, otherwise the inserted
key).  On failure the tree is returned unchanged, exactly as in the source
(`*tree.rootPtr` is only overwritten on success). -/
def Insert (t : Tree α) (k : α) (pr : ℕ) : Tree α × Option α :=
  match insertNode t k pr with
  | none => (t, none)
  | some res => (res, some k)

/-- `__insertNodeDup`: duplicate-admitting insertion; equal keys descend to
the right and insertion never fails. -/
def insertNodeDup : Tree α → α → ℕ → Tree α
  | null, k, pr => node k pr 1 null null
  | node rk rp rc l r, k, pr =>
    if k < rk then
      let res := insertNodeDup l k pr
      let root := node rk rp (rc + 1) res r
      if prio res < rp then rotateRight root else root
    else
      let res := insertNodeDup r k pr
      let root := node rk rp (rc + 1) l res
      if prio res < rp then rotateLeft root else root

/-- `InsertDup`: always succeeds and returns the inserted key. -/
def InsertDup (t : Tree α) (k : α) (pr : ℕ) : Tree α × α :=
  (insertNodeDup t k pr, k)

/-- `Search`: iterative descent, returned here as the found key or `none`. -/
def Search : Tree α → α → Option α
  | null, _ => none
  | node rk _ _ l r, k =>
    if k < rk then Search l k else if rk < k then Search r k else some rk

/-- `__searchOrInsertNode`: result is the updated tree, whether the fresh
node was inserted (`ret == p` in Go), and the key of the returned node.
Note that—unlike `__insertNode`—the rotation test compares the *fresh
node's* priority `pr` with the parent's. -/
def searchOrInsertNode : Tree α → α → ℕ → Tree α × Bool × α
  | null, k, pr => (node k pr 1 null null, true, k)
  | node rk rp rc l r, k, pr =>
    if k < rk then
      match searchOrInsertNode l k pr with
      | (l2, true, k2) =>
          let root := node rk rp (rc + 1) l2 r
          (if pr < rp then rotateRight root else root, true, k2)
      | (l2, false, k2) => (node rk rp rc l2 r, false, k2)
    else if rk < k then
      match searchOrInsertNode r k pr with
      | (r2, true, k2) =>
          let root := node rk rp (rc + 1) l r2
          (if pr < rp then rotateLeft root else root, true, k2)
      | (r2, false, k2) => (node rk rp rc l r2, false, k2)
    else (node rk rp rc l r, false, rk)

/-- `SearchOrInsert`: pair (inserted?, stored key) plus the updated tree. -/
def SearchOrInsert (t : Tree α) (k : α) (pr : ℕ) : Tree α × Bool × α :=
  searchOrInsertNode t k pr

/-- `__joinExclusive`: exclusive join of two range-disjoint trees, selecting
the root of smaller priority and accumulating counts, exactly as in the
source. -/
def joinExclusive : Tree α → Tree α → Tree α
  | null, tg => tg
  | ts, null => ts
  | node tsk tsp tsc tsl tsr, node tgk tgp tgc tgl tgr =>
    if tsp < tgp then
      node tsk tsp (tsc + tgc) tsl (joinExclusive tsr (node tgk tgp tgc tgl tgr))
    else
      node tgk tgp (tgc + tsc) (joinExclusive (node tsk tsp tsc tsl tsr) tgl) tgr
  termination_by ts tg => numNodes ts + numNodes tg
  decreasing_by
    · simp [numNodes]; omega
    · simp [numNodes]; omega

/-- `Min`: descend along `llink`; the Go code returns `nil` (here `none`)
on the empty tree. -/
def Min : Tree α → Option α
  | null => none
  | node k _ _ null _ => some k
  | node _ _ _ (node lk lp lc ll lr) _ => Min (node lk lp lc ll lr)

/-- `Max`: descend along `rlink`; `nil`/`none` on the empty tree. -/
def Max : Tree α → Option α
  | null => none
  | node k _ _ _ null => some k
  | node _ _ _ _ (node rk rp rc rl rr) => Max (node rk rp rc rl rr)

/-- The comparator applied to the two optional values in `JoinExclusive`'s
guard (`tsTree.Less(tsTree.Max(), tgTree.Min())`).  Both operands are real
keys whenever the guard is reached on count-correct trees. -/
def optLess : Option α → Option α → Bool
  | some a, some b => decide (a < b)
  | _, _ => false

/-- `JoinExclusive`: `none` models the panic "Trees are not range-disjoint";
otherwise the result is the pair (joined receiver, emptied argument). -/
def JoinExclusive (ts tg : Tree α) : Option (Tree α × Tree α) :=
  if Size ts ≠ 0 ∧ Size tg ≠ 0 ∧ ¬ optLess (Max ts) (Min tg) then none
  else some (joinExclusive ts tg, null)

/-- `__remove`: returns `none` when the key is absent (nothing mutated), and
otherwise the new subtree together with the detached node (whose links have
been `reset()` to the sentinel and count to 1). -/
def removeNode : Tree α → α → Option (Tree α × Tree α)
  | null, _ => none
  | node rk rp rc l r, k =>
    if k < rk then
      match removeNode l k with
      | none => none
      | some (l2, ret) => some (node rk rp (rc - 1) l2 r, ret)
    else if rk < k then
      match removeNode r k with
      | none => none
      | some (r2, ret) => some (node rk rp (rc - 1) l r2, ret)
    else
      some (joinExclusive l r, node rk rp 1 null null)

/-- `Remove`: the updated tree and the removed key (or `none`). -/
def Remove (t : Tree α) (k : α) : Tree α × Option α :=
  match removeNode t k with
  | none => (t, none)
  | some (t2, ret) =>
      (t2, match ret with
           | node kk _ _ _ _ => some kk
           | null => none)

/-- `__removePos`: removal by inorder position.  The Go code has no sentinel
case (a call on the sentinel would dereference a nil pointer); `none` models
that crash and is unreachable for valid positions on count-correct trees. -/
def removePos : Tree α → ℤ → Option (Tree α × Tree α)
  | null, _ => none
  | node rk rp rc l r, i =>
    if i = countv l then
      some (joinExclusive l r, node rk rp 1 null null)
    else if i < countv l then
      match removePos l i with
      | none => none
      | some (l2, ret) => some (node rk rp (rc - 1) l2 r, ret)
    else
      match removePos r (i - (countv l + 1)) with
      | none => none
      | some (r2, ret) => some (node rk rp (rc - 1) l r2, ret)

/-- `RemoveByPos`: panics (`none`) when `i >= tree.Size()`; note the source
performs no negative-position check before descending. -/
def RemoveByPos (t : Tree α) (i : ℤ) : Option (Tree α × Tree α) :=
  if i ≥ Size t then none else removePos t i

/-- `__splitByKeyDup`: splits into (keys ≤ k, keys > k); a root with
`¬(k < root.key)` — in particular a root equal to `k` — goes to the
less-side, as in the source. -/
def splitByKeyDup : Tree α → α → Tree α × Tree α
  | null, _ => (null, null)
  | node rk rp rc l r, k =>
    if k < rk then
      let p := splitByKeyDup l k
      (p.1, node rk rp (rc - countv p.1) p.2 r)
    else
      let p := splitByKeyDup r k
      (node rk rp (rc - countv p.2) l p.1, p.2)

/-- `SplitByKey`: the two pieces, plus the emptied source tree. -/
def SplitByKey (t : Tree α) (k : α) : (Tree α × Tree α) × Tree α :=
  (splitByKeyDup t k, null)

/-- `__splitPos`: split by inorder position `i` into `[0, i]` and the rest.
As in the source there is no sentinel case; `none` models the nil-pointer
crash, unreachable for valid positions on count-correct trees. -/
def splitPos : Tree α → ℤ → Option (Tree α × Tree α)
  | null, _ => none
  | node rk rp rc l r, i =>
    if i = countv l then
      some (node rk rp (rc - countv r) l null, r)
    else if i < countv l then
      match splitPos l i with
      | none => none
      | some (lp, rp2) => some (lp, node rk rp (rc - countv lp) rp2 r)
    else
      match splitPos r (i - (countv l + 1)) with
      | none => none
      | some (lp, rp2) => some (node rk rp (rc - countv rp2) l lp, rp2)

/-- `SplitByPosition`: panic (`none`) when `i` is out of range; the source
special-cases `i = count - 1` by handing over the whole tree.  Result:
((ts, tg), emptied source). -/
def SplitByPosition (t : Tree α) (i : ℤ) : Option ((Tree α × Tree α) × Tree α) :=
  if i < 0 ∨ i ≥ countv t then none
  else if i = countv t - 1 then some ((t, null), null)
  else
    match splitPos t i with
    | none => none
    | some p => some (p, null)

/-- `ExtractRange`: two position splits followed by an exclusive join of the
outer pieces, which are swapped back into the source.  Result:
(extracted middle piece, remaining source tree); `none` models any panic.
The `begPos` computation (`beginPos - 1`, clamped to `0` when
`beginPos == 0`) is taken verbatim from the source. -/
def ExtractRange (t : Tree α) (beginPos endPos : ℤ) : Option (Tree α × Tree α) :=
  if beginPos > endPos ∨ endPos > countv t - 1 then none
  else
    match SplitByPosition t endPos with
    | none => none
    | some ((treeAux, endTree), _) =>
      match SplitByPosition treeAux (if beginPos = 0 then 0 else beginPos - 1) with
      | none => none
      | some ((beginTree, result), _) =>
        match JoinExclusive beginTree endTree with
        | none => none
        | some (joined, _) => some (result, joined)

/-- `__joinDup`: walks the second tree in preorder, detaching every node
(`reset()`) and feeding it to the duplicate insert on the accumulator. -/
def joinDup (acc : Tree α) : Tree α → Tree α
  | null => acc
  | node k p _ l r => joinDup (joinDup (insertNodeDup acc k p) l) r

/-- `JoinDup`: (merged receiver, emptied argument). -/
def JoinDup (t rhs : Tree α) : Tree α × Tree α :=
  (joinDup t rhs, null)

/-- `__union`: walks the second tree in preorder and unique-inserts a copy of
every node into the accumulator, skipping duplicates. -/
def unionAux (acc : Tree α) : Tree α → Tree α
  | null => acc
  | node k p _ l r =>
      let acc1 := match insertNode acc k p with
                  | none => acc
                  | some res => res
      unionAux (unionAux acc1 l) r

/-- `Union`: the receiver after absorbing `rhs`; `rhs` itself is not
modified by the source. -/
def Union (t rhs : Tree α) : Tree α := unionAux t rhs

/-- `__intersectionPrefix`: preorder walk over the first tree threading the
state (rhs, result, diff1).  On a key present in `rhs` the detached node is
unique-inserted into `result`; the source then tests the returned pointer
against Go `nil` — which `nullNodePtr` never is — so on a duplicate the
result tree is overwritten with the sentinel.  That behaviour is modelled
faithfully here (`none` case stores `null`). -/
def intersectionPrefix : Tree α → Tree α × Tree α × Tree α → Tree α × Tree α × Tree α
  | null, st => st
  | node k p _ l r, (rhs, result, diff1) =>
      let st1 : Tree α × Tree α × Tree α :=
        match removeNode rhs k with
        | some (rhs2, _) =>
            (rhs2,
             (match insertNode result k p with
              | none => null
              | some q => q),
             diff1)
        | none => (rhs, result, insertNodeDup diff1 k p)
      intersectionPrefix r (intersectionPrefix l st1)

/-- `Intersection`: returns (inter, diff1, diff2) along with the two emptied
input trees; `diff2` is built by `JoinDup` from what is left of `rhs`. -/
def Intersection (t rhs : Tree α) :
    (Tree α × Tree α × Tree α) × Tree α × Tree α :=
  let st := intersectionPrefix t (rhs, null, null)
  ((st.2.1, st.2.2, joinDup null st.1), null, null)

/-- `__choose`: descend guided by the stored counts.  The loop exits when
`i` equals the left child's count; on the sentinel the Go code would crash
or diverge (modelled by `none`, unreachable for valid positions). -/
def chooseAux : Tree α → ℤ → Option α
  | null, _ => none
  | node rk _ _ l r, i =>
    if i = countv l then some rk
    else if i < countv l then chooseAux l i
    else chooseAux r (i - (countv l + 1))

/-- `Choose`: panics (`none`) when `pos >= root.count`; there is no negative
check in the source (a negative position crashes in `__choose`, which the
model also maps to `none`). -/
def Choose (t : Tree α) (pos : ℤ) : Option α :=
  if pos ≥ countv t then none else chooseAux t pos

/-- `notFound` marker of the source. -/
def notFound : ℤ := -1

/-- `__rank`: inorder position of `key`, or `-1` when absent. -/
def rankAux : Tree α → α → ℤ
  | null, _ => notFound
  | node rk _ _ l r, k =>
    if k < rk then rankAux l k
    else if rk < k then
      let ret := rankAux r k
      if ret ≠ notFound then ret + countv l + 1 else notFound
    else countv l

/-- `RankInOrder`: pair (found?, position). -/
def RankInOrder (t : Tree α) (k : α) : Bool × ℤ :=
  (rankAux t k ≠ notFound, rankAux t k)

/-- `Clear`: the root is replaced by the sentinel. -/
def Clear (_ : Tree α) : Tree α := null

/-- `Swap`: the two roots are exchanged. -/
def Swap (t other : Tree α) : Tree α × Tree α := (other, t)

/-- The treap iterator of the source: the captured root, the (derived)
current key, the 0-based position and the captured size `N`. -/
structure Iterator (α : Type) where
  root : Tree α
  curr : Option α
  pos : ℤ
  N : ℤ

/-- The iterator initialisation routine of the source (named `initialize`
there, which is a reserved word here): position the iterator on rank 0, or
do nothing when the captured size is not positive. -/
def setupIterator (it : Iterator α) : Iterator α :=
  if it.N ≤ 0 then it
  else { it with curr := chooseAux it.root 0, pos := 0 }

/-- `NewIterator`. -/
def NewIterator (t : Tree α) : Iterator α :=
  setupIterator { root := t, curr := none, pos := -1, N := Size t }

/-- `ResetLast`: panics (`none`) exactly when the captured size is zero. -/
def ResetLast (it : Iterator α) : Option (Iterator α) :=
  if it.N = 0 then none
  else some { it with pos := it.N - 1, curr := chooseAux it.root (it.N - 1) }

/-- `NewReverseIterator` builds the raw iterator and immediately calls
`ResetLast`, so it panics (`none`) on an empty tree. -/
def NewReverseIterator (t : Tree α) : Option (Iterator α) :=
  ResetLast { root := t, curr := none, pos := -1, N := Size t }

/-- `HasCurr`. -/
def HasCurr (it : Iterator α) : Bool :=
  it.pos ≥ 0 && it.pos < it.N

/-! ## Invariant checkers

`checkBSTStrict`/`checkBSTDup` state the search-order invariant in the
per-node form of the specification ("every key in n.left is … n.key …").
`checkTreap` and `checkCounter` are direct translations of the checker
functions of the source. -/

/-- All keys of the subtree satisfy `p`. -/
def allKeys (p : α → Bool) : Tree α → Bool
  | null => true
  | node k _ _ l r => p k && allKeys p l && allKeys p r

/-- Strict BST order: every key in `llink` is strictly less than the node's
key and every key in `rlink` strictly greater (unique-key variant). -/
def checkBSTStrict : Tree α → Bool
  | null => true
  | node k _ _ l r =>
      allKeys (fun x => decide (x < k)) l && allKeys (fun x => decide (k < x)) r &&
      checkBSTStrict l && checkBSTStrict r

/-- Duplicate-variant BST order: keys on the left are not greater than the
node's key and keys on the right not smaller. -/
def checkBSTDup : Tree α → Bool
  | null => true
  | node k _ _ l r =>
      allKeys (fun x => decide (x ≤ k)) l && allKeys (fun x => decide (k ≤ x)) r &&
      checkBSTDup l && checkBSTDup r

/-- The duplicate-variant BST order exactly as claim C1 words it: the left
side is relaxed to "not greater" but the right side is still required to be
strictly greater. -/
def checkBSTDupClaimed : Tree α → Bool
  | null => true
  | node k _ _ l r =>
      allKeys (fun x => decide (x ≤ k)) l && allKeys (fun x => decide (k < x)) r &&
      checkBSTDupClaimed l && checkBSTDupClaimed r

/-- `checkTreap` of the source: min-heap order on priorities, the sentinel
carrying the maximal priority. -/
def checkTreap : Tree α → Bool
  | null => true
  | node _ p _ l r =>
      !(p > prio l || p > prio r) && checkTreap l && checkTreap r

/-- `checkCounter` of the source: every stored count is one more than the sum
of the children's stored counts. -/
def checkCounter : Tree α → Bool
  | null => true
  | node _ _ c l r =>
      decide (countv l + 1 + countv r = c) && checkCounter l && checkCounter r

/-- The conjunction of the three invariants for the unique-key variant
(`checkAll` of the source with the strict BST reading of the spec). -/
def Inv (t : Tree α) : Bool := checkBSTStrict t && checkTreap t && checkCounter t

/-- The conjunction of the three invariants for the duplicate-key variant. -/
def InvDup (t : Tree α) : Bool := checkBSTDup t && checkTreap t && checkCounter t

@[simp] theorem checkBSTStrict_null : checkBSTStrict (null : Tree α) = true := rfl

@[simp] theorem checkBSTDup_null : checkBSTDup (null : Tree α) = true := rfl

@[simp] theorem checkTreap_null : checkTreap (null : Tree α) = true := rfl

@[simp] theorem checkCounter_null : checkCounter (null : Tree α) = true := rfl

@[simp] theorem Inv_null : Inv (null : Tree α) = true := rfl

@[simp] theorem InvDup_null : InvDup (null : Tree α) = true := rfl

/-! ## Basic lemmas about keys, rotations and the checkers -/

theorem keys_rotateRight (t : Tree α) : keys (rotateRight t) = keys t := by
  cases t with
  | null => rfl
  | node k p c l r =>
    cases l with
    | null => rfl
    | node qk qp qc ql qr => simp [rotateRight, keys, List.append_assoc]

theorem keys_rotateLeft (t : Tree α) : keys (rotateLeft t) = keys t := by
  cases t with
  | null => rfl
  | node k p c l r =>
    cases r with
    | null => rfl
    | node qk qp qc ql qr => simp [rotateLeft, keys, List.append_assoc]

theorem prios_rotateRight (t : Tree α) : prios (rotateRight t) = prios t := by
  cases t with
  | null => rfl
  | node k p c l r =>
    cases l with
    | null => rfl
    | node qk qp qc ql qr =>
      simp only [rotateRight, prios, ← Multiset.singleton_add]
      abel

theorem prios_rotateLeft (t : Tree α) : prios (rotateLeft t) = prios t := by
  cases t with
  | null => rfl
  | node k p c l r =>
    cases r with
    | null => rfl
    | node qk qp qc ql qr =>
      simp only [rotateLeft, prios, ← Multiset.singleton_add]
      abel

theorem allKeys_iff {p : α → Bool} {t : Tree α} :
    allKeys p t = true ↔ ∀ x ∈ keys t, p x = true := by
  induction t with
  | null => simp [allKeys, keys]
  | node k pq c l r ihl ihr =>
    simp only [allKeys, keys, Bool.and_eq_true, ihl, ihr, List.mem_append, List.mem_cons]
    constructor
    · rintro ⟨⟨hk, hl⟩, hr⟩ x hx
      rcases hx with hx | rfl | hx
      · exact hl x hx
      · exact hk
      · exact hr x hx
    · intro h
      exact ⟨⟨h k (Or.inr (Or.inl rfl)), fun x hx => h x (Or.inl hx)⟩,
             fun x hx => h x (Or.inr (Or.inr hx))⟩

theorem checkBSTStrict_iff {t : Tree α} :
    checkBSTStrict t = true ↔ (keys t).Pairwise (· < ·) := by
  induction t with
  | null => simp [checkBSTStrict, keys]
  | node k p c l r ihl ihr =>
    simp only [checkBSTStrict, keys, Bool.and_eq_true, allKeys_iff, decide_eq_true_eq,
      List.pairwise_append, List.pairwise_cons, List.mem_cons, ihl, ihr]
    constructor
    · rintro ⟨⟨⟨hl, hr⟩, pl⟩, pr⟩
      refine ⟨pl, ⟨hr, pr⟩, fun x hx y hy => ?_⟩
      rcases hy with rfl | hy
      · exact hl x hx
      · exact lt_trans (hl x hx) (hr y hy)
    · rintro ⟨pl, ⟨hr, pr⟩, cross⟩
      exact ⟨⟨⟨fun x hx => cross x hx k (Or.inl rfl), hr⟩, pl⟩, pr⟩

theorem checkBSTDup_iff {t : Tree α} :
    checkBSTDup t = true ↔ (keys t).Pairwise (· ≤ ·) := by
  induction t with
  | null => simp [checkBSTDup, keys]
  | node k p c l r ihl ihr =>
    simp only [checkBSTDup, keys, Bool.and_eq_true, allKeys_iff, decide_eq_true_eq,
      List.pairwise_append, List.pairwise_cons, List.mem_cons, ihl, ihr]
    constructor
    · rintro ⟨⟨⟨hl, hr⟩, pl⟩, pr⟩
      refine ⟨pl, ⟨hr, pr⟩, fun x hx y hy => ?_⟩
      rcases hy with rfl | hy
      · exact hl x hx
      · exact le_trans (hl x hx) (hr y hy)
    · rintro ⟨pl, ⟨hr, pr⟩, cross⟩
      exact ⟨⟨⟨fun x hx => cross x hx k (Or.inl rfl), hr⟩, pl⟩, pr⟩

theorem strict_imp_dup {t : Tree α} (h : checkBSTStrict t = true) : checkBSTDup t = true := by
  rw [checkBSTDup_iff]
  exact (checkBSTStrict_iff.1 h).imp (fun hxy => le_of_lt hxy)

theorem checkTreap_node_iff {k : α} {p : ℕ} {c : ℤ} {l r : Tree α} :
    checkTreap (node k p c l r) = true ↔
      p ≤ prio l ∧ p ≤ prio r ∧ checkTreap l = true ∧ checkTreap r = true := by
  simp only [checkTreap, Bool.and_eq_true, Bool.not_eq_true', Bool.or_eq_false_iff,
    decide_eq_false_iff_not, gt_iff_lt, not_lt]
  tauto

theorem checkCounter_node_iff {k : α} {p : ℕ} {c : ℤ} {l r : Tree α} :
    checkCounter (node k p c l r) = true ↔
      countv l + 1 + countv r = c ∧ checkCounter l = true ∧ checkCounter r = true := by
  simp only [checkCounter, Bool.and_eq_true, decide_eq_true_eq]
  tauto

theorem countv_eq_length {t : Tree α} (h : checkCounter t = true) :
    countv t = ((keys t).length : ℤ) := by
  induction t with
  | null => simp [countv, keys]
  | node k p c l r ihl ihr =>
    rcases checkCounter_node_iff.1 h with ⟨hc, hl, hr⟩
    simp only [countv, keys, List.length_append, List.length_cons]
    rw [← hc, ihl hl, ihr hr]
    push_cast
    ring

theorem countv_nonneg {t : Tree α} (h : checkCounter t = true) : 0 ≤ countv t := by
  rw [countv_eq_length h]; exact Int.ofNat_nonneg _

theorem countv_pos {k : α} {p : ℕ} {c : ℤ} {l r : Tree α}
    (h : checkCounter (node k p c l r) = true) : 0 < countv (node k p c l r) := by
  rcases checkCounter_node_iff.1 h with ⟨hc, hl, hr⟩
  have h1 := countv_nonneg hl
  have h2 := countv_nonneg hr
  simp only [countv] at *
  omega

theorem prio_le_maxPrio {t : Tree α} (h : checkTreap t = true) : prio t ≤ maxPrio := by
  induction t with
  | null => exact le_refl _
  | node k p c l r ihl ihr =>
    rcases checkTreap_node_iff.1 h with ⟨hpl, _, hl, _⟩
    exact le_trans hpl (ihl hl)

theorem prio_le_of_mem_prios {t : Tree α} (h : checkTreap t = true) :
    ∀ q ∈ prios t, prio t ≤ q := by
  induction t with
  | null => simp [prios]
  | node k p c l r ihl ihr =>
    rcases checkTreap_node_iff.1 h with ⟨hpl, hpr, hl, hr⟩
    intro q hq
    simp only [prios, Multiset.mem_cons, Multiset.mem_add] at hq
    rcases hq with rfl | hq | hq
    · exact le_refl _
    · exact le_trans hpl (ihl hl q hq)
    · exact le_trans hpr (ihr hr q hq)

theorem mem_prios_le_maxPrio {t : Tree α} (h : checkTreap t = true) :
    ∀ q ∈ prios t, q ≤ maxPrio := by
  induction t with
  | null => simp [prios]
  | node k p c l r ihl ihr =>
    rcases checkTreap_node_iff.1 h with ⟨hpl, _, hl, hr⟩
    intro q hq
    simp only [prios, Multiset.mem_cons, Multiset.mem_add] at hq
    rcases hq with rfl | hq | hq
    · exact le_trans hpl (prio_le_maxPrio hl)
    · exact ihl hl q hq
    · exact ihr hr q hq

/-- Inserting an element in the middle of a list is, up to permutation,
consing it in front. -/
theorem perm_cons_middle {l₁ l₂ : List α} {a k : α} :
    (l₁ ++ a :: k :: l₂).Perm (k :: (l₁ ++ a :: l₂)) := by
  have h := @List.perm_middle _ k (l₁ ++ [a]) l₂
  simpa using h

/-! ## `__insertNode` -/

theorem insertNode_keys {t : Tree α} {k : α} {pr : ℕ} {t2 : Tree α}
    (h : insertNode t k pr = some t2) : (keys t2).Perm (k :: keys t) := by
  induction t generalizing t2 with
  | null =>
    simp only [insertNode, Option.some.injEq] at h
    subst h; simp [keys]
  | node rk rp rc l r ihl ihr =>
    by_cases h1 : k < rk
    · cases hres : insertNode l k pr with
      | none => simp [insertNode, h1, hres] at h
      | some res =>
        simp only [insertNode, if_pos h1, hres, Option.some.injEq] at h
        subst h
        have hkeys := ihl hres
        by_cases h2 : prio res < rp
        · rw [if_pos h2, keys_rotateRight]
          simpa [keys] using hkeys.append_right (rk :: keys r)
        · rw [if_neg h2]
          simpa [keys] using hkeys.append_right (rk :: keys r)
    · by_cases h2 : rk < k
      · cases hres : insertNode r k pr with
        | none => simp [insertNode, h1, h2, hres] at h
        | some res =>
          simp only [insertNode, if_neg h1, if_pos h2, hres, Option.some.injEq] at h
          subst h
          have hkeys := ihr hres
          have step : (keys l ++ rk :: keys res).Perm (k :: (keys l ++ rk :: keys r)) :=
            ((hkeys.cons rk).append_left (keys l)).trans perm_cons_middle
          by_cases h3 : prio res < rp
          · rw [if_pos h3, keys_rotateLeft]; simpa [keys] using step
          · rw [if_neg h3]; simpa [keys] using step
      · simp [insertNode, h1, h2] at h

theorem insertNode_prios {t : Tree α} {k : α} {pr : ℕ} {t2 : Tree α}
    (h : insertNode t k pr = some t2) : prios t2 = pr ::ₘ prios t := by
  induction t generalizing t2 with
  | null =>
    simp only [insertNode, Option.some.injEq] at h
    subst h; simp [prios]
  | node rk rp rc l r ihl ihr =>
    by_cases h1 : k < rk
    · cases hres : insertNode l k pr with
      | none => simp [insertNode, h1, hres] at h
      | some res =>
        simp only [insertNode, if_pos h1, hres, Option.some.injEq] at h
        subst h
        have hp := ihl hres
        by_cases h2 : prio res < rp
        · rw [if_pos h2, prios_rotateRight]
          simp only [prios, hp, ← Multiset.singleton_add]
          abel
        · rw [if_neg h2]
          simp only [prios, hp, ← Multiset.singleton_add]
          abel
    · by_cases h2 : rk < k
      · cases hres : insertNode r k pr with
        | none => simp [insertNode, h1, h2, hres] at h
        | some res =>
          simp only [insertNode, if_neg h1, if_pos h2, hres, Option.some.injEq] at h
          subst h
          have hp := ihr hres
          by_cases h3 : prio res < rp
          · rw [if_pos h3, prios_rotateLeft]
            simp only [prios, hp, ← Multiset.singleton_add]
            abel
          · rw [if_neg h3]
            simp only [prios, hp, ← Multiset.singleton_add]
            abel
      · simp [insertNode, h1, h2] at h

theorem insertNode_eq_none_iff {t : Tree α} {k : α} {pr : ℕ}
    (hb : checkBSTStrict t = true) : insertNode t k pr = none ↔ k ∈ keys t := by
  induction t with
  | null => simp [insertNode, keys]
  | node rk rp rc l r ihl ihr =>
    have hb' := hb
    simp only [checkBSTStrict, Bool.and_eq_true, allKeys_iff, decide_eq_true_eq] at hb'
    obtain ⟨⟨⟨hkl, hkr⟩, hbl⟩, hbr⟩ := hb'
    by_cases h1 : k < rk
    · have : k ∉ rk :: keys r := by
        intro hmem
        rcases List.mem_cons.1 hmem with rfl | hmem
        · exact lt_irrefl _ h1
        · exact absurd (hkr k hmem) (not_lt.2 (le_of_lt h1))
      cases hres : insertNode l k pr with
      | none =>
        simp only [insertNode, if_pos h1, hres]
        simp only [keys, List.mem_append, List.mem_cons]
        have := (ihl hbl).1 hres
        tauto
      | some res =>
        simp only [insertNode, if_pos h1, hres]
        have hnotl : k ∉ keys l := by
          intro hmem
          rw [← ihl hbl] at hmem
          rw [hmem] at hres
          exact Option.noConfusion hres
        simp only [keys, List.mem_append, List.mem_cons]
        constructor
        · intro hh; exact Option.noConfusion hh
        · intro hh
          rcases hh with hh | hh | hh
          · exact absurd hh hnotl
          · subst hh; exact absurd h1 (lt_irrefl k)
          · exact absurd (hkr k hh) (not_lt.2 (le_of_lt h1))
    · by_cases h2 : rk < k
      · have hnotk : k ≠ rk := fun e => absurd h2 (by rw [e]; exact lt_irrefl _)
        have hnotl : k ∉ keys l := fun hmem => absurd (hkl k hmem) (not_lt.2 (le_of_lt h2))
        cases hres : insertNode r k pr with
        | none =>
          simp only [insertNode, if_neg h1, if_pos h2, hres]
          simp only [keys, List.mem_append, List.mem_cons]
          have := (ihr hbr).1 hres
          tauto
        | some res =>
          simp only [insertNode, if_neg h1, if_pos h2, hres]
          have hnotr : k ∉ keys r := by
            intro hmem
            rw [← ihr hbr] at hmem
            rw [hmem] at hres
            exact Option.noConfusion hres
          simp only [keys, List.mem_append, List.mem_cons]
          constructor
          · intro hh; exact Option.noConfusion hh
          · intro hh; tauto
      · have heq : k = rk := le_antisymm (not_lt.1 h2) (not_lt.1 h1)
        simp [insertNode, h1, h2, keys, heq]

theorem checkCounter_rotateRight {t : Tree α} (h : checkCounter t = true) :
    checkCounter (rotateRight t) = true ∧ countv (rotateRight t) = countv t := by
  cases t with
  | null => exact ⟨h, rfl⟩
  | node k p c l r =>
    cases l with
    | null => exact ⟨h, rfl⟩
    | node qk qp qc ql qr =>
      rcases checkCounter_node_iff.1 h with ⟨hc, hl, hr⟩
      rcases checkCounter_node_iff.1 hl with ⟨hcl, hll, hlr⟩
      simp only [countv] at hc hcl
      simp only [rotateRight]
      refine ⟨?_, by simp only [countv]; omega⟩
      rw [checkCounter_node_iff]
      refine ⟨?_, hll, ?_⟩
      · simp only [countv]; omega
      · rw [checkCounter_node_iff]
        exact ⟨by simp only [countv]; omega, hlr, hr⟩

theorem checkCounter_rotateLeft {t : Tree α} (h : checkCounter t = true) :
    checkCounter (rotateLeft t) = true ∧ countv (rotateLeft t) = countv t := by
  cases t with
  | null => exact ⟨h, rfl⟩
  | node k p c l r =>
    cases r with
    | null => exact ⟨h, rfl⟩
    | node qk qp qc ql qr =>
      rcases checkCounter_node_iff.1 h with ⟨hc, hl, hr⟩
      rcases checkCounter_node_iff.1 hr with ⟨hcr, hrl, hrr⟩
      simp only [countv] at hc hcr
      simp only [rotateLeft]
      refine ⟨?_, by simp only [countv]; omega⟩
      rw [checkCounter_node_iff]
      refine ⟨?_, ?_, hrr⟩
      · simp only [countv]; omega
      · rw [checkCounter_node_iff]
        exact ⟨by simp only [countv]; omega, hl, hrl⟩

theorem insertNode_count {t : Tree α} {k : α} {pr : ℕ} {t2 : Tree α}
    (hc : checkCounter t = true) (h : insertNode t k pr = some t2) :
    checkCounter t2 = true ∧ countv t2 = countv t + 1 := by
  induction t generalizing t2 with
  | null =>
    simp only [insertNode, Option.some.injEq] at h
    subst h
    exact ⟨by simp [checkCounter, countv], by simp [countv]⟩
  | node rk rp rc l r ihl ihr =>
    rcases checkCounter_node_iff.1 hc with ⟨hcc, hcl, hcr⟩
    by_cases h1 : k < rk
    · cases hres : insertNode l k pr with
      | none => simp [insertNode, h1, hres] at h
      | some res =>
        simp only [insertNode, if_pos h1, hres, Option.some.injEq] at h
        subst h
        obtain ⟨hres_c, hres_n⟩ := ihl hcl hres
        have hroot : checkCounter (node rk rp (rc + 1) res r) = true := by
          rw [checkCounter_node_iff]; exact ⟨by omega, hres_c, hcr⟩
        by_cases h2 : prio res < rp
        · rw [if_pos h2]
          obtain ⟨ha, hb2⟩ := checkCounter_rotateRight hroot
          exact ⟨ha, by rw [hb2]; simp [countv]⟩
        · rw [if_neg h2]
          exact ⟨hroot, by simp [countv]⟩
    · by_cases h2 : rk < k
      · cases hres : insertNode r k pr with
        | none => simp [insertNode, h1, h2, hres] at h
        | some res =>
          simp only [insertNode, if_neg h1, if_pos h2, hres, Option.some.injEq] at h
          subst h
          obtain ⟨hres_c, hres_n⟩ := ihr hcr hres
          have hroot : checkCounter (node rk rp (rc + 1) l res) = true := by
            rw [checkCounter_node_iff]; exact ⟨by omega, hcl, hres_c⟩
          by_cases h3 : prio res < rp
          · rw [if_pos h3]
            obtain ⟨ha, hb2⟩ := checkCounter_rotateLeft hroot
            exact ⟨ha, by rw [hb2]; simp [countv]⟩
          · rw [if_neg h3]
            exact ⟨hroot, by simp [countv]⟩
      · simp [insertNode, h1, h2] at h

theorem prio_mem_prios {t : Tree α} (h : t ≠ null) : prio t ∈ prios t := by
  cases t with
  | null => exact absurd rfl h
  | node k p c l r => simp [prio, prios]

theorem insertNode_heap {t : Tree α} {k : α} {pr : ℕ} {t2 : Tree α}
    (ht : checkTreap t = true) (hpr : pr ≤ maxPrio) (h : insertNode t k pr = some t2) :
    checkTreap t2 = true ∧ prio t2 = min pr (prio t) := by
  induction t generalizing t2 with
  | null =>
    simp only [insertNode, Option.some.injEq] at h
    subst h
    refine ⟨?_, ?_⟩
    · rw [checkTreap_node_iff]
      exact ⟨by simpa [prio] using hpr, by simpa [prio] using hpr, rfl, rfl⟩
    · simp only [prio_node, prio_null]
      exact (min_eq_left hpr).symm
  | node rk rp rc l r ihl ihr =>
    rcases checkTreap_node_iff.1 ht with ⟨hrl, hrr, htl, htr⟩
    by_cases h1 : k < rk
    · cases hres : insertNode l k pr with
      | none => simp [insertNode, h1, hres] at h
      | some res =>
        simp only [insertNode, if_pos h1, hres, Option.some.injEq] at h
        subst h
        obtain ⟨hres_t, hres_p⟩ := ihl htl hres
        have hprios := insertNode_prios hres
        by_cases h2 : prio res < rp
        · rw [if_pos h2]
          have hrp_max : rp ≤ maxPrio := le_trans hrl (prio_le_maxPrio htl)
          cases res with
          | null =>
            simp only [prio_null] at h2
            omega
          | node qk qp qc ql qr =>
            simp only [prio_node] at h2 hres_p
            have hqp : qp = pr := by
              rcases le_total pr (prio l) with hcase | hcase
              · rw [min_eq_left hcase] at hres_p; exact hres_p
              · rw [min_eq_right hcase] at hres_p; omega
            rcases checkTreap_node_iff.1 hres_t with ⟨hq1, hq2, hq3, hq4⟩
            have hprios2 : prios ql + prios qr = prios l := by
              have hx : (qp ::ₘ (prios ql + prios qr)) = pr ::ₘ prios l := by
                simpa [prios] using hprios
              rw [hqp] at hx
              exact (Multiset.cons_inj_right _).1 hx
            have hqr_ge : rp ≤ prio qr := by
              cases hqre : qr with
              | null => simpa [prio] using hrp_max
              | node w x y z v =>
                have hmem : prio qr ∈ prios qr := prio_mem_prios (by rw [hqre]; intro hc; exact Tree.noConfusion hc)
                have hmem2 : prio qr ∈ prios l := by
                  rw [← hprios2]
                  exact Multiset.mem_add.2 (Or.inr hmem)
                rw [← hqre]
                exact le_trans hrl (prio_le_of_mem_prios htl _ hmem2)
            simp only [rotateRight]
            refine ⟨?_, ?_⟩
            · rw [checkTreap_node_iff]
              refine ⟨hq1, by simp only [prio_node]; omega, hq3, ?_⟩
              rw [checkTreap_node_iff]
              exact ⟨hqr_ge, hrr, hq4, htr⟩
            · simp only [prio_node]
              rw [hqp] at h2 ⊢
              exact (min_eq_left (le_of_lt h2)).symm
        · rw [if_neg h2]
          have hle : rp ≤ prio res := not_lt.1 h2
          refine ⟨?_, ?_⟩
          · rw [checkTreap_node_iff]
            exact ⟨hle, hrr, hres_t, htr⟩
          · have hrp_pr : rp ≤ pr := by
              rw [hres_p] at hle
              exact le_trans hle (min_le_left _ _)
            simp only [prio_node]
            exact (min_eq_right hrp_pr).symm
    · by_cases h2 : rk < k
      · cases hres : insertNode r k pr with
        | none => simp [insertNode, h1, h2, hres] at h
        | some res =>
          simp only [insertNode, if_neg h1, if_pos h2, hres, Option.some.injEq] at h
          subst h
          obtain ⟨hres_t, hres_p⟩ := ihr htr hres
          have hprios := insertNode_prios hres
          by_cases h3 : prio res < rp
          · rw [if_pos h3]
            have hrp_max : rp ≤ maxPrio := le_trans hrr (prio_le_maxPrio htr)
            cases res with
            | null =>
              simp only [prio_null] at h3
              omega
            | node qk qp qc ql qr =>
              simp only [prio_node] at h3 hres_p
              have hqp : qp = pr := by
                rcases le_total pr (prio r) with hcase | hcase
                · rw [min_eq_left hcase] at hres_p; exact hres_p
                · rw [min_eq_right hcase] at hres_p; omega
              rcases checkTreap_node_iff.1 hres_t with ⟨hq1, hq2, hq3, hq4⟩
              have hprios2 : prios ql + prios qr = prios r := by
                have hx : (qp ::ₘ (prios ql + prios qr)) = pr ::ₘ prios r := by
                  simpa [prios] using hprios
                rw [hqp] at hx
                exact (Multiset.cons_inj_right _).1 hx
              have hql_ge : rp ≤ prio ql := by
                cases hqle : ql with
                | null => simpa [prio] using hrp_max
                | node w x y z v =>
                  have hmem : prio ql ∈ prios ql := prio_mem_prios (by rw [hqle]; intro hc; exact Tree.noConfusion hc)
                  have hmem2 : prio ql ∈ prios r := by
                    rw [← hprios2]
                    exact Multiset.mem_add.2 (Or.inl hmem)
                  rw [← hqle]
                  exact le_trans hrr (prio_le_of_mem_prios htr _ hmem2)
              simp only [rotateLeft]
              refine ⟨?_, ?_⟩
              · rw [checkTreap_node_iff]
                refine ⟨by simp only [prio_node]; omega, hq2, ?_, hq4⟩
                rw [checkTreap_node_iff]
                exact ⟨hrl, hql_ge, htl, hq3⟩
              · simp only [prio_node]
                rw [hqp] at h3 ⊢
                exact (min_eq_left (le_of_lt h3)).symm
          · rw [if_neg h3]
            have hle : rp ≤ prio res := not_lt.1 h3
            refine ⟨?_, ?_⟩
            · rw [checkTreap_node_iff]
              exact ⟨hrl, hle, htl, hres_t⟩
            · have hrp_pr : rp ≤ pr := by
                rw [hres_p] at hle
                exact le_trans hle (min_le_left _ _)
              simp only [prio_node]
              exact (min_eq_right hrp_pr).symm
      · simp [insertNode, h1, h2] at h

theorem insertNode_bst {t : Tree α} {k : α} {pr : ℕ} {t2 : Tree α}
    (hb : checkBSTStrict t = true) (h : insertNode t k pr = some t2) :
    checkBSTStrict t2 = true := by
  induction t generalizing t2 with
  | null =>
    simp only [insertNode, Option.some.injEq] at h
    subst h
    simp [checkBSTStrict, allKeys]
  | node rk rp rc l r ihl ihr =>
    have hb' := hb
    simp only [checkBSTStrict, Bool.and_eq_true, allKeys_iff, decide_eq_true_eq] at hb'
    obtain ⟨⟨⟨hkl, hkr⟩, hbl⟩, hbr⟩ := hb'
    by_cases h1 : k < rk
    · cases hres : insertNode l k pr with
      | none => simp [insertNode, h1, hres] at h
      | some res =>
        simp only [insertNode, if_pos h1, hres, Option.some.injEq] at h
        subst h
        have hperm := insertNode_keys hres
        have hroot : checkBSTStrict (node rk rp (rc + 1) res r) = true := by
          simp only [checkBSTStrict, Bool.and_eq_true, allKeys_iff, decide_eq_true_eq]
          refine ⟨⟨⟨fun x hx => ?_, hkr⟩, ihl hbl hres⟩, hbr⟩
          rcases List.mem_cons.1 (hperm.mem_iff.1 hx) with rfl | hx2
          · exact h1
          · exact hkl x hx2
        by_cases h2 : prio res < rp
        · rw [if_pos h2]
          rw [checkBSTStrict_iff, keys_rotateRight, ← checkBSTStrict_iff]
          exact hroot
        · rw [if_neg h2]; exact hroot
    · by_cases h2 : rk < k
      · cases hres : insertNode r k pr with
        | none => simp [insertNode, h1, h2, hres] at h
        | some res =>
          simp only [insertNode, if_neg h1, if_pos h2, hres, Option.some.injEq] at h
          subst h
          have hperm := insertNode_keys hres
          have hroot : checkBSTStrict (node rk rp (rc + 1) l res) = true := by
            simp only [checkBSTStrict, Bool.and_eq_true, allKeys_iff, decide_eq_true_eq]
            refine ⟨⟨⟨hkl, fun x hx => ?_⟩, hbl⟩, ihr hbr hres⟩
            rcases List.mem_cons.1 (hperm.mem_iff.1 hx) with rfl | hx2
            · exact h2
            · exact hkr x hx2
          by_cases h3 : prio res < rp
          · rw [if_pos h3]
            rw [checkBSTStrict_iff, keys_rotateLeft, ← checkBSTStrict_iff]
            exact hroot
          · rw [if_neg h3]; exact hroot
      · simp [insertNode, h1, h2] at h

/-! ## `__insertNodeDup` -/

theorem insertNodeDup_keys {t : Tree α} {k : α} {pr : ℕ} :
    (keys (insertNodeDup t k pr)).Perm (k :: keys t) := by
  induction t with
  | null => simp [insertNodeDup]
  | node rk rp rc l r ihl ihr =>
    by_cases h1 : k < rk
    · simp only [insertNodeDup, if_pos h1]
      by_cases h2 : prio (insertNodeDup l k pr) < rp
      · rw [if_pos h2, keys_rotateRight]
        simpa [keys] using ihl.append_right (rk :: keys r)
      · rw [if_neg h2]
        simpa [keys] using ihl.append_right (rk :: keys r)
    · simp only [insertNodeDup, if_neg h1]
      have step : (keys l ++ rk :: keys (insertNodeDup r k pr)).Perm
          (k :: (keys l ++ rk :: keys r)) :=
        ((ihr.cons rk).append_left (keys l)).trans perm_cons_middle
      by_cases h2 : prio (insertNodeDup r k pr) < rp
      · rw [if_pos h2, keys_rotateLeft]; simpa [keys] using step
      · rw [if_neg h2]; simpa [keys] using step

theorem insertNodeDup_prios {t : Tree α} {k : α} {pr : ℕ} :
    prios (insertNodeDup t k pr) = pr ::ₘ prios t := by
  induction t with
  | null => simp [insertNodeDup]
  | node rk rp rc l r ihl ihr =>
    by_cases h1 : k < rk
    · simp only [insertNodeDup, if_pos h1]
      by_cases h2 : prio (insertNodeDup l k pr) < rp
      · rw [if_pos h2, prios_rotateRight]
        simp only [prios_node, ihl, ← Multiset.singleton_add]
        abel
      · rw [if_neg h2]
        simp only [prios_node, ihl, ← Multiset.singleton_add]
        abel
    · simp only [insertNodeDup, if_neg h1]
      by_cases h2 : prio (insertNodeDup r k pr) < rp
      · rw [if_pos h2, prios_rotateLeft]
        simp only [prios_node, ihr, ← Multiset.singleton_add]
        abel
      · rw [if_neg h2]
        simp only [prios_node, ihr, ← Multiset.singleton_add]
        abel

theorem insertNodeDup_count {t : Tree α} {k : α} {pr : ℕ}
    (hc : checkCounter t = true) :
    checkCounter (insertNodeDup t k pr) = true ∧
      countv (insertNodeDup t k pr) = countv t + 1 := by
  induction t with
  | null => exact ⟨by simp [insertNodeDup, checkCounter], by simp [insertNodeDup]⟩
  | node rk rp rc l r ihl ihr =>
    rcases checkCounter_node_iff.1 hc with ⟨hcc, hcl, hcr⟩
    by_cases h1 : k < rk
    · obtain ⟨ha, hn⟩ := ihl hcl
      simp only [insertNodeDup, if_pos h1]
      have hroot : checkCounter (node rk rp (rc + 1) (insertNodeDup l k pr) r) = true := by
        rw [checkCounter_node_iff]; exact ⟨by omega, ha, hcr⟩
      by_cases h2 : prio (insertNodeDup l k pr) < rp
      · rw [if_pos h2]
        obtain ⟨hx, hy⟩ := checkCounter_rotateRight hroot
        exact ⟨hx, by rw [hy]; simp⟩
      · rw [if_neg h2]
        exact ⟨hroot, by simp⟩
    · obtain ⟨ha, hn⟩ := ihr hcr
      simp only [insertNodeDup, if_neg h1]
      have hroot : checkCounter (node rk rp (rc + 1) l (insertNodeDup r k pr)) = true := by
        rw [checkCounter_node_iff]; exact ⟨by omega, hcl, ha⟩
      by_cases h2 : prio (insertNodeDup r k pr) < rp
      · rw [if_pos h2]
        obtain ⟨hx, hy⟩ := checkCounter_rotateLeft hroot
        exact ⟨hx, by rw [hy]; simp⟩
      · rw [if_neg h2]
        exact ⟨hroot, by simp⟩

theorem insertNodeDup_heap {t : Tree α} {k : α} {pr : ℕ}
    (ht : checkTreap t = true) (hpr : pr ≤ maxPrio) :
    checkTreap (insertNodeDup t k pr) = true ∧
      prio (insertNodeDup t k pr) = min pr (prio t) := by
  induction t with
  | null =>
    refine ⟨?_, ?_⟩
    · rw [insertNodeDup, checkTreap_node_iff]
      exact ⟨by simpa using hpr, by simpa using hpr, rfl, rfl⟩
    · rw [insertNodeDup, prio_node, prio_null]
      exact (min_eq_left hpr).symm
  | node rk rp rc l r ihl ihr =>
    rcases checkTreap_node_iff.1 ht with ⟨hrl, hrr, htl, htr⟩
    by_cases h1 : k < rk
    · obtain ⟨hres_t, hres_p⟩ := ihl htl
      have hprios := @insertNodeDup_prios α _ l k pr
      simp only [insertNodeDup, if_pos h1]
      by_cases h2 : prio (insertNodeDup l k pr) < rp
      · rw [if_pos h2]
        have hrp_max : rp ≤ maxPrio := le_trans hrl (prio_le_maxPrio htl)
        cases hres : insertNodeDup l k pr with
        | null => rw [hres] at h2; simp only [prio_null] at h2; omega
        | node qk qp qc ql qr =>
          rw [hres] at h2 hres_t hres_p hprios
          simp only [prio_node] at h2 hres_p
          have hqp : qp = pr := by
            rcases le_total pr (prio l) with hcase | hcase
            · rw [min_eq_left hcase] at hres_p; exact hres_p
            · rw [min_eq_right hcase] at hres_p; omega
          rcases checkTreap_node_iff.1 hres_t with ⟨hq1, hq2, hq3, hq4⟩
          have hprios2 : prios ql + prios qr = prios l := by
            have hx : (qp ::ₘ (prios ql + prios qr)) = pr ::ₘ prios l := by
              simpa [prios] using hprios
            rw [hqp] at hx
            exact (Multiset.cons_inj_right _).1 hx
          have hqr_ge : rp ≤ prio qr := by
            cases hqre : qr with
            | null => simpa using hrp_max
            | node w x y z v =>
              have hmem : prio qr ∈ prios qr :=
                prio_mem_prios (by rw [hqre]; intro hc2; exact Tree.noConfusion hc2)
              have hmem2 : prio qr ∈ prios l := by
                rw [← hprios2]
                exact Multiset.mem_add.2 (Or.inr hmem)
              rw [← hqre]
              exact le_trans hrl (prio_le_of_mem_prios htl _ hmem2)
          simp only [rotateRight]
          refine ⟨?_, ?_⟩
          · rw [checkTreap_node_iff]
            refine ⟨hq1, by simp only [prio_node]; omega, hq3, ?_⟩
            rw [checkTreap_node_iff]
            exact ⟨hqr_ge, hrr, hq4, htr⟩
          · simp only [prio_node]
            rw [hqp] at h2 ⊢
            exact (min_eq_left (le_of_lt h2)).symm
      · rw [if_neg h2]
        have hle : rp ≤ prio (insertNodeDup l k pr) := not_lt.1 h2
        refine ⟨?_, ?_⟩
        · rw [checkTreap_node_iff]
          exact ⟨hle, hrr, hres_t, htr⟩
        · have hrp_pr : rp ≤ pr := by
            rw [hres_p] at hle
            exact le_trans hle (min_le_left _ _)
          simp only [prio_node]
          exact (min_eq_right hrp_pr).symm
    · obtain ⟨hres_t, hres_p⟩ := ihr htr
      have hprios := @insertNodeDup_prios α _ r k pr
      simp only [insertNodeDup, if_neg h1]
      by_cases h2 : prio (insertNodeDup r k pr) < rp
      · rw [if_pos h2]
        have hrp_max : rp ≤ maxPrio := le_trans hrr (prio_le_maxPrio htr)
        cases hres : insertNodeDup r k pr with
        | null => rw [hres] at h2; simp only [prio_null] at h2; omega
        | node qk qp qc ql qr =>
          rw [hres] at h2 hres_t hres_p hprios
          simp only [prio_node] at h2 hres_p
          have hqp : qp = pr := by
            rcases le_total pr (prio r) with hcase | hcase
            · rw [min_eq_left hcase] at hres_p; exact hres_p
            · rw [min_eq_right hcase] at hres_p; omega
          rcases checkTreap_node_iff.1 hres_t with ⟨hq1, hq2, hq3, hq4⟩
          have hprios2 : prios ql + prios qr = prios r := by
            have hx : (qp ::ₘ (prios ql + prios qr)) = pr ::ₘ prios r := by
              simpa [prios] using hprios
            rw [hqp] at hx
            exact (Multiset.cons_inj_right _).1 hx
          have hql_ge : rp ≤ prio ql := by
            cases hqle : ql with
            | null => simpa using hrp_max
            | node w x y z v =>
              have hmem : prio ql ∈ prios ql :=
                prio_mem_prios (by rw [hqle]; intro hc2; exact Tree.noConfusion hc2)
              have hmem2 : prio ql ∈ prios r := by
                rw [← hprios2]
                exact Multiset.mem_add.2 (Or.inl hmem)
              rw [← hqle]
              exact le_trans hrr (prio_le_of_mem_prios htr _ hmem2)
          simp only [rotateLeft]
          refine ⟨?_, ?_⟩
          · rw [checkTreap_node_iff]
            refine ⟨by simp only [prio_node]; omega, hq2, ?_, hq4⟩
            rw [checkTreap_node_iff]
            exact ⟨hrl, hql_ge, htl, hq3⟩
          · simp only [prio_node]
            rw [hqp] at h2 ⊢
            exact (min_eq_left (le_of_lt h2)).symm
      · rw [if_neg h2]
        have hle : rp ≤ prio (insertNodeDup r k pr) := not_lt.1 h2
        refine ⟨?_, ?_⟩
        · rw [checkTreap_node_iff]
          exact ⟨hrl, hle, htl, hres_t⟩
        · have hrp_pr : rp ≤ pr := by
            rw [hres_p] at hle
            exact le_trans hle (min_le_left _ _)
          simp only [prio_node]
          exact (min_eq_right hrp_pr).symm

theorem insertNodeDup_bst {t : Tree α} {k : α} {pr : ℕ}
    (hb : checkBSTDup t = true) : checkBSTDup (insertNodeDup t k pr) = true := by
  induction t with
  | null => simp [insertNodeDup, checkBSTDup, allKeys]
  | node rk rp rc l r ihl ihr =>
    have hb' := hb
    simp only [checkBSTDup, Bool.and_eq_true, allKeys_iff, decide_eq_true_eq] at hb'
    obtain ⟨⟨⟨hkl, hkr⟩, hbl⟩, hbr⟩ := hb'
    by_cases h1 : k < rk
    · simp only [insertNodeDup, if_pos h1]
      have hroot : checkBSTDup (node rk rp (rc + 1) (insertNodeDup l k pr) r) = true := by
        simp only [checkBSTDup, Bool.and_eq_true, allKeys_iff, decide_eq_true_eq]
        refine ⟨⟨⟨fun x hx => ?_, hkr⟩, ihl hbl⟩, hbr⟩
        rcases List.mem_cons.1 (insertNodeDup_keys.mem_iff.1 hx) with rfl | hx2
        · exact le_of_lt h1
        · exact hkl x hx2
      by_cases h2 : prio (insertNodeDup l k pr) < rp
      · rw [if_pos h2]
        rw [checkBSTDup_iff, keys_rotateRight, ← checkBSTDup_iff]
        exact hroot
      · rw [if_neg h2]; exact hroot
    · simp only [insertNodeDup, if_neg h1]
      have hroot : checkBSTDup (node rk rp (rc + 1) l (insertNodeDup r k pr)) = true := by
        simp only [checkBSTDup, Bool.and_eq_true, allKeys_iff, decide_eq_true_eq]
        refine ⟨⟨⟨hkl, fun x hx => ?_⟩, hbl⟩, ihr hbr⟩
        rcases List.mem_cons.1 (insertNodeDup_keys.mem_iff.1 hx) with rfl | hx2
        · exact not_lt.1 h1
        · exact hkr x hx2
      by_cases h2 : prio (insertNodeDup r k pr) < rp
      · rw [if_pos h2]
        rw [checkBSTDup_iff, keys_rotateLeft, ← checkBSTDup_iff]
        exact hroot
      · rw [if_neg h2]; exact hroot

/-! ## `__joinExclusive` -/

theorem joinExclusive_keys (a b : Tree α) :
    keys (joinExclusive a b) = keys a ++ keys b := by
  induction a, b using joinExclusive.induct with
  | case1 tg => simp [joinExclusive]
  | case2 ts h => simp [joinExclusive]
  | case3 tsk tsp tsc tsl tsr tgk tgp tgc tgl tgr h ih =>
      rw [joinExclusive]
      simp [if_pos h, ih, List.append_assoc]
  | case4 tsk tsp tsc tsl tsr tgk tgp tgc tgl tgr h ih =>
      rw [joinExclusive]
      simp [if_neg h, ih, List.append_assoc]

theorem joinExclusive_prios (a b : Tree α) :
    prios (joinExclusive a b) = prios a + prios b := by
  induction a, b using joinExclusive.induct with
  | case1 tg => simp [joinExclusive]
  | case2 ts h =>
      cases ts with
      | null => simp [joinExclusive]
      | node k p c l r => simp [joinExclusive]
  | case3 tsk tsp tsc tsl tsr tgk tgp tgc tgl tgr h ih =>
      rw [joinExclusive]
      rw [if_pos h]
      simp only [prios_node, ih, ← Multiset.singleton_add]
      abel
  | case4 tsk tsp tsc tsl tsr tgk tgp tgc tgl tgr h ih =>
      rw [joinExclusive]
      rw [if_neg h]
      simp only [prios_node, ih, ← Multiset.singleton_add]
      abel

theorem joinExclusive_count {a b : Tree α}
    (ha : checkCounter a = true) (hb : checkCounter b = true) :
    checkCounter (joinExclusive a b) = true ∧
      countv (joinExclusive a b) = countv a + countv b := by
  induction a, b using joinExclusive.induct with
  | case1 tg => simpa [joinExclusive] using hb
  | case2 ts h =>
      cases ts with
      | null => simpa [joinExclusive] using hb
      | node k p c l r => simpa [joinExclusive] using ha
  | case3 tsk tsp tsc tsl tsr tgk tgp tgc tgl tgr h ih =>
      rcases checkCounter_node_iff.1 ha with ⟨hc1, hc2, hc3⟩
      obtain ⟨hx, hy⟩ := ih hc3 hb
      rw [joinExclusive, if_pos h]
      constructor
      · rw [checkCounter_node_iff]
        refine ⟨?_, hc2, hx⟩
        rw [hy]
        simp only [countv_node] at *
        omega
      · simp only [countv_node]
  | case4 tsk tsp tsc tsl tsr tgk tgp tgc tgl tgr h ih =>
      rcases checkCounter_node_iff.1 hb with ⟨hc1, hc2, hc3⟩
      obtain ⟨hx, hy⟩ := ih ha hc2
      rw [joinExclusive, if_neg h]
      constructor
      · rw [checkCounter_node_iff]
        refine ⟨?_, hx, hc3⟩
        rw [hy]
        simp only [countv_node] at *
        omega
      · simp only [countv_node]
        omega

theorem joinExclusive_heap {a b : Tree α}
    (ha : checkTreap a = true) (hb : checkTreap b = true) :
    checkTreap (joinExclusive a b) = true ∧
      prio (joinExclusive a b) = min (prio a) (prio b) := by
  induction a, b using joinExclusive.induct with
  | case1 tg =>
      refine ⟨by simpa [joinExclusive] using hb, ?_⟩
      simp only [joinExclusive, prio_null]
      exact (min_eq_right (prio_le_maxPrio hb)).symm
  | case2 ts h =>
      cases ts with
      | null =>
          refine ⟨by simpa [joinExclusive] using hb, ?_⟩
          simp [joinExclusive]
      | node k p c l r =>
          refine ⟨by simpa [joinExclusive] using ha, ?_⟩
          simp only [joinExclusive, prio_null]
          exact (min_eq_left (prio_le_maxPrio ha)).symm
  | case3 tsk tsp tsc tsl tsr tgk tgp tgc tgl tgr h ih =>
      rcases checkTreap_node_iff.1 ha with ⟨ht1, ht2, ht3, ht4⟩
      obtain ⟨hx, hy⟩ := ih ht4 hb
      rw [joinExclusive, if_pos h]
      refine ⟨?_, by simp only [prio_node]; exact (min_eq_left (le_of_lt h)).symm⟩
      rw [checkTreap_node_iff]
      refine ⟨ht1, ?_, ht3, hx⟩
      rw [hy]
      simp only [prio_node]
      exact le_min ht2 (le_of_lt h)
  | case4 tsk tsp tsc tsl tsr tgk tgp tgc tgl tgr h ih =>
      rcases checkTreap_node_iff.1 hb with ⟨ht1, ht2, ht3, ht4⟩
      obtain ⟨hx, hy⟩ := ih ha ht3
      rw [joinExclusive, if_neg h]
      refine ⟨?_, by simp only [prio_node]; exact (min_eq_right (not_lt.1 h)).symm⟩
      rw [checkTreap_node_iff]
      refine ⟨?_, ht2, hx, ht4⟩
      rw [hy]
      simp only [prio_node]
      exact le_min (not_lt.1 h) ht1

/-! ## `__remove` -/

theorem removeNode_spec {t : Tree α} {k : α} {t2 ret : Tree α}
    (h : removeNode t k = some (t2, ret)) :
    (∃ p, ret = node k p 1 null null) ∧
      List.Sublist (keys t2) (keys t) ∧ (keys t).Perm (k :: keys t2) := by
  induction t generalizing t2 ret with
  | null => simp [removeNode] at h
  | node rk rp rc l r ihl ihr =>
    by_cases h1 : k < rk
    · cases hres : removeNode l k with
      | none => simp [removeNode, h1, hres] at h
      | some p =>
        obtain ⟨l2, ret2⟩ := p
        simp only [removeNode, if_pos h1, hres, Option.some.injEq, Prod.mk.injEq] at h
        obtain ⟨rfl, rfl⟩ := h.symm
        obtain ⟨hret, hsub, hperm⟩ := ihl hres
        refine ⟨hret, ?_, ?_⟩
        · exact List.Sublist.append hsub (List.Sublist.refl _)
        · simpa [keys] using hperm.append_right (rk :: keys r)
    · by_cases h2 : rk < k
      · cases hres : removeNode r k with
        | none => simp [removeNode, h1, h2, hres] at h
        | some p =>
          obtain ⟨r2, ret2⟩ := p
          simp only [removeNode, if_neg h1, if_pos h2, hres, Option.some.injEq,
            Prod.mk.injEq] at h
          obtain ⟨rfl, rfl⟩ := h.symm
          obtain ⟨hret, hsub, hperm⟩ := ihr hres
          refine ⟨hret, ?_, ?_⟩
          · exact List.Sublist.append (List.Sublist.refl _) (List.Sublist.cons₂ _ hsub)
          · exact ((hperm.cons rk).append_left (keys l)).trans perm_cons_middle
      · have heq : rk = k := le_antisymm (not_lt.1 h1) (not_lt.1 h2)
        simp only [removeNode, if_neg h1, if_neg h2, Option.some.injEq, Prod.mk.injEq] at h
        obtain ⟨rfl, rfl⟩ := h.symm
        refine ⟨⟨rp, by rw [heq]⟩, ?_, ?_⟩
        · rw [joinExclusive_keys]
          exact List.Sublist.append (List.Sublist.refl _) (List.sublist_cons_self _ _)
        · rw [joinExclusive_keys, heq]
          exact List.perm_middle

theorem removeNode_count {t : Tree α} {k : α} {t2 ret : Tree α}
    (hc : checkCounter t = true) (h : removeNode t k = some (t2, ret)) :
    checkCounter t2 = true ∧ countv t2 = countv t - 1 := by
  induction t generalizing t2 ret with
  | null => simp [removeNode] at h
  | node rk rp rc l r ihl ihr =>
    rcases checkCounter_node_iff.1 hc with ⟨hcc, hcl, hcr⟩
    by_cases h1 : k < rk
    · cases hres : removeNode l k with
      | none => simp [removeNode, h1, hres] at h
      | some p =>
        obtain ⟨l2, ret2⟩ := p
        simp only [removeNode, if_pos h1, hres, Option.some.injEq, Prod.mk.injEq] at h
        obtain ⟨rfl, rfl⟩ := h.symm
        obtain ⟨hx, hy⟩ := ihl hcl hres
        refine ⟨?_, by simp⟩
        rw [checkCounter_node_iff]
        exact ⟨by omega, hx, hcr⟩
    · by_cases h2 : rk < k
      · cases hres : removeNode r k with
        | none => simp [removeNode, h1, h2, hres] at h
        | some p =>
          obtain ⟨r2, ret2⟩ := p
          simp only [removeNode, if_neg h1, if_pos h2, hres, Option.some.injEq,
            Prod.mk.injEq] at h
          obtain ⟨rfl, rfl⟩ := h.symm
          obtain ⟨hx, hy⟩ := ihr hcr hres
          refine ⟨?_, by simp⟩
          rw [checkCounter_node_iff]
          exact ⟨by omega, hcl, hx⟩
      · simp only [removeNode, if_neg h1, if_neg h2, Option.some.injEq, Prod.mk.injEq] at h
        obtain ⟨rfl, rfl⟩ := h.symm
        obtain ⟨hx, hy⟩ := joinExclusive_count hcl hcr
        refine ⟨hx, ?_⟩
        simp only [countv_node]
        omega

theorem removeNode_heap {t : Tree α} {k : α} {t2 ret : Tree α}
    (ht : checkTreap t = true) (h : removeNode t k = some (t2, ret)) :
    checkTreap t2 = true ∧ prio t ≤ prio t2 := by
  induction t generalizing t2 ret with
  | null => simp [removeNode] at h
  | node rk rp rc l r ihl ihr =>
    rcases checkTreap_node_iff.1 ht with ⟨hrl, hrr, htl, htr⟩
    by_cases h1 : k < rk
    · cases hres : removeNode l k with
      | none => simp [removeNode, h1, hres] at h
      | some p =>
        obtain ⟨l2, ret2⟩ := p
        simp only [removeNode, if_pos h1, hres, Option.some.injEq, Prod.mk.injEq] at h
        obtain ⟨rfl, rfl⟩ := h.symm
        obtain ⟨hx, hy⟩ := ihl htl hres
        refine ⟨?_, by simp⟩
        rw [checkTreap_node_iff]
        exact ⟨le_trans hrl hy, hrr, hx, htr⟩
    · by_cases h2 : rk < k
      · cases hres : removeNode r k with
        | none => simp [removeNode, h1, h2, hres] at h
        | some p =>
          obtain ⟨r2, ret2⟩ := p
          simp only [removeNode, if_neg h1, if_pos h2, hres, Option.some.injEq,
            Prod.mk.injEq] at h
          obtain ⟨rfl, rfl⟩ := h.symm
          obtain ⟨hx, hy⟩ := ihr htr hres
          refine ⟨?_, by simp⟩
          rw [checkTreap_node_iff]
          exact ⟨hrl, le_trans hrr hy, htl, hx⟩
      · simp only [removeNode, if_neg h1, if_neg h2, Option.some.injEq, Prod.mk.injEq] at h
        obtain ⟨rfl, rfl⟩ := h.symm
        obtain ⟨hx, hy⟩ := joinExclusive_heap htl htr
        exact ⟨hx, by rw [hy]; exact le_min hrl hrr⟩

theorem removeNode_eq_none_iff {t : Tree α} {k : α}
    (hb : checkBSTDup t = true) : removeNode t k = none ↔ k ∉ keys t := by
  induction t with
  | null => simp [removeNode]
  | node rk rp rc l r ihl ihr =>
    have hb' := hb
    simp only [checkBSTDup, Bool.and_eq_true, allKeys_iff, decide_eq_true_eq] at hb'
    obtain ⟨⟨⟨hkl, hkr⟩, hbl⟩, hbr⟩ := hb'
    by_cases h1 : k < rk
    · have hnr : k ∉ rk :: keys r := by
        intro hmem
        rcases List.mem_cons.1 hmem with rfl | hmem
        · exact lt_irrefl _ h1
        · exact absurd (hkr k hmem) (not_le.2 h1)
      cases hres : removeNode l k with
      | none =>
        simp only [removeNode, if_pos h1, hres]
        simp only [keys_node, List.mem_append, List.mem_cons]
        have hthis := (ihl hbl).1 hres
        constructor
        · intro _ hmem
          rcases hmem with hmem | rfl | hmem
          · exact hthis hmem
          · exact lt_irrefl _ h1
          · exact absurd (hkr k hmem) (not_le.2 h1)
        · intro _; trivial
      | some p =>
        obtain ⟨l2, ret2⟩ := p
        simp only [removeNode, if_pos h1, hres]
        have hmem : k ∈ keys l := by
          by_contra hcon
          rw [← ihl hbl] at hcon
          rw [hcon] at hres
          exact Option.noConfusion hres
        constructor
        · intro hh; exact Option.noConfusion hh
        · intro hh
          have hhh : k ∈ keys (node rk rp rc l r) := by
            simp only [keys_node, List.mem_append]
            exact Or.inl hmem
          exact absurd hhh hh
    · by_cases h2 : rk < k
      · cases hres : removeNode r k with
        | none =>
          simp only [removeNode, if_neg h1, if_pos h2, hres]
          have hthis := (ihr hbr).1 hres
          constructor
          · intro _ hmem
            simp only [keys_node, List.mem_append, List.mem_cons] at hmem
            rcases hmem with hmem | rfl | hmem
            · exact absurd (hkl k hmem) (not_le.2 h2)
            · exact lt_irrefl _ h2
            · exact hthis hmem
          · intro _; trivial
        | some p =>
          obtain ⟨r2, ret2⟩ := p
          simp only [removeNode, if_neg h1, if_pos h2, hres]
          have hmem : k ∈ keys r := by
            by_contra hcon
            rw [← ihr hbr] at hcon
            rw [hcon] at hres
            exact Option.noConfusion hres
          constructor
          · intro hh; exact Option.noConfusion hh
          · intro hh
            have hhh : k ∈ keys (node rk rp rc l r) := by
              simp only [keys_node, List.mem_append, List.mem_cons]
              exact Or.inr (Or.inr hmem)
            exact absurd hhh hh
      · have heq : rk = k := le_antisymm (not_lt.1 h1) (not_lt.1 h2)
        simp only [removeNode, if_neg h1, if_neg h2]
        constructor
        · intro hh; exact Option.noConfusion hh
        · intro hh
          have hhh : k ∈ keys (node rk rp rc l r) := by
            simp only [keys_node, List.mem_append, List.mem_cons]
            exact Or.inr (Or.inl heq.symm)
          exact absurd hhh hh

/-- The three invariants survive a successful `__remove` — for the strict
variant via the sublist characterisation. -/
theorem removeNode_bst_strict {t : Tree α} {k : α} {t2 ret : Tree α}
    (hb : checkBSTStrict t = true) (h : removeNode t k = some (t2, ret)) :
    checkBSTStrict t2 = true := by
  obtain ⟨_, hsub, _⟩ := removeNode_spec h
  rw [checkBSTStrict_iff] at hb ⊢
  exact hb.sublist hsub

theorem removeNode_bst_dup {t : Tree α} {k : α} {t2 ret : Tree α}
    (hb : checkBSTDup t = true) (h : removeNode t k = some (t2, ret)) :
    checkBSTDup t2 = true := by
  obtain ⟨_, hsub, _⟩ := removeNode_spec h
  rw [checkBSTDup_iff] at hb ⊢
  exact hb.sublist hsub

/-! ## `__searchOrInsertNode` -/

theorem searchOrInsertNode_false {t : Tree α} {k : α} {pr : ℕ}
    (h : (searchOrInsertNode t k pr).2.1 = false) :
    (searchOrInsertNode t k pr).1 = t ∧ (searchOrInsertNode t k pr).2.2 = k ∧ k ∈ keys t := by
  induction t with
  | null => simp [searchOrInsertNode] at h
  | node rk rp rc l r ihl ihr =>
    by_cases h1 : k < rk
    · rcases hres : searchOrInsertNode l k pr with ⟨l2, b2, k2⟩
      cases b2 with
      | true => simp [searchOrInsertNode, if_pos h1, hres] at h
      | false =>
        have hih := ihl (by rw [hres])
        rw [hres] at hih
        obtain ⟨he1, he2, hmem⟩ := hih
        simp only at he1 he2
        simp only [searchOrInsertNode, if_pos h1, hres]
        subst he1
        subst he2
        refine ⟨by trivial, by trivial, ?_⟩
        simp only [keys_node, List.mem_append]
        exact Or.inl hmem
    · by_cases h2 : rk < k
      · rcases hres : searchOrInsertNode r k pr with ⟨r2, b2, k2⟩
        cases b2 with
        | true => simp [searchOrInsertNode, if_neg h1, if_pos h2, hres] at h
        | false =>
          have hih := ihr (by rw [hres])
          rw [hres] at hih
          obtain ⟨he1, he2, hmem⟩ := hih
          simp only at he1 he2
          simp only [searchOrInsertNode, if_neg h1, if_pos h2, hres]
          subst he1
          subst he2
          refine ⟨by trivial, by trivial, ?_⟩
          simp only [keys_node, List.mem_append, List.mem_cons]
          exact Or.inr (Or.inr hmem)
      · have heq : rk = k := le_antisymm (not_lt.1 h1) (not_lt.1 h2)
        simp only [searchOrInsertNode, if_neg h1, if_neg h2]
        refine ⟨by trivial, heq, ?_⟩
        simp only [keys_node, List.mem_append, List.mem_cons]
        exact Or.inr (Or.inl heq.symm)

theorem searchOrInsertNode_keys_true {t : Tree α} {k : α} {pr : ℕ}
    (h : (searchOrInsertNode t k pr).2.1 = true) :
    (keys ((searchOrInsertNode t k pr).1)).Perm (k :: keys t) := by
  induction t with
  | null => simp [searchOrInsertNode]
  | node rk rp rc l r ihl ihr =>
    by_cases h1 : k < rk
    · rcases hres : searchOrInsertNode l k pr with ⟨l2, b2, k2⟩
      cases b2 with
      | false => simp [searchOrInsertNode, if_pos h1, hres] at h
      | true =>
        have hih := ihl (by rw [hres])
        rw [hres] at hih
        simp only at hih
        simp only [searchOrInsertNode, if_pos h1, hres]
        by_cases h2 : pr < rp
        · rw [if_pos h2]
          simp only [keys_rotateRight, keys_node]
          simpa using hih.append_right (rk :: keys r)
        · rw [if_neg h2]
          simp only [keys_node]
          simpa using hih.append_right (rk :: keys r)
    · by_cases h2 : rk < k
      · rcases hres : searchOrInsertNode r k pr with ⟨r2, b2, k2⟩
        cases b2 with
        | false => simp [searchOrInsertNode, if_neg h1, if_pos h2, hres] at h
        | true =>
          have hih := ihr (by rw [hres])
          rw [hres] at hih
          simp only at hih
          simp only [searchOrInsertNode, if_neg h1, if_pos h2, hres]
          have step : (keys l ++ rk :: keys r2).Perm (k :: (keys l ++ rk :: keys r)) :=
            ((hih.cons rk).append_left (keys l)).trans perm_cons_middle
          by_cases h3 : pr < rp
          · rw [if_pos h3]
            simp only [keys_rotateLeft, keys_node]
            exact step
          · rw [if_neg h3]
            simp only [keys_node]
            exact step
      · simp [searchOrInsertNode, if_neg h1, if_neg h2] at h

theorem searchOrInsertNode_prios_true {t : Tree α} {k : α} {pr : ℕ}
    (h : (searchOrInsertNode t k pr).2.1 = true) :
    prios ((searchOrInsertNode t k pr).1) = pr ::ₘ prios t := by
  induction t with
  | null => simp [searchOrInsertNode]
  | node rk rp rc l r ihl ihr =>
    by_cases h1 : k < rk
    · rcases hres : searchOrInsertNode l k pr with ⟨l2, b2, k2⟩
      cases b2 with
      | false => simp [searchOrInsertNode, if_pos h1, hres] at h
      | true =>
        have hih := ihl (by rw [hres])
        rw [hres] at hih
        simp only at hih
        simp only [searchOrInsertNode, if_pos h1, hres]
        by_cases h2 : pr < rp
        · rw [if_pos h2, prios_rotateRight]
          simp only [prios_node, hih, ← Multiset.singleton_add]
          abel
        · rw [if_neg h2]
          simp only [prios_node, hih, ← Multiset.singleton_add]
          abel
    · by_cases h2 : rk < k
      · rcases hres : searchOrInsertNode r k pr with ⟨r2, b2, k2⟩
        cases b2 with
        | false => simp [searchOrInsertNode, if_neg h1, if_pos h2, hres] at h
        | true =>
          have hih := ihr (by rw [hres])
          rw [hres] at hih
          simp only at hih
          simp only [searchOrInsertNode, if_neg h1, if_pos h2, hres]
          by_cases h3 : pr < rp
          · rw [if_pos h3, prios_rotateLeft]
            simp only [prios_node, hih, ← Multiset.singleton_add]
            abel
          · rw [if_neg h3]
            simp only [prios_node, hih, ← Multiset.singleton_add]
            abel
      · simp [searchOrInsertNode, if_neg h1, if_neg h2] at h

theorem searchOrInsertNode_count_true {t : Tree α} {k : α} {pr : ℕ}
    (hc : checkCounter t = true) (h : (searchOrInsertNode t k pr).2.1 = true) :
    checkCounter ((searchOrInsertNode t k pr).1) = true ∧
      countv ((searchOrInsertNode t k pr).1) = countv t + 1 := by
  induction t with
  | null => exact ⟨by simp [searchOrInsertNode, checkCounter], by simp [searchOrInsertNode]⟩
  | node rk rp rc l r ihl ihr =>
    rcases checkCounter_node_iff.1 hc with ⟨hcc, hcl, hcr⟩
    by_cases h1 : k < rk
    · rcases hres : searchOrInsertNode l k pr with ⟨l2, b2, k2⟩
      cases b2 with
      | false => simp [searchOrInsertNode, if_pos h1, hres] at h
      | true =>
        have hih := ihl hcl (by rw [hres])
        rw [hres] at hih
        simp only at hih
        obtain ⟨ha, hn⟩ := hih
        simp only [searchOrInsertNode, if_pos h1, hres]
        have hroot : checkCounter (node rk rp (rc + 1) l2 r) = true := by
          rw [checkCounter_node_iff]; exact ⟨by omega, ha, hcr⟩
        by_cases h2 : pr < rp
        · rw [if_pos h2]
          obtain ⟨hx, hy⟩ := checkCounter_rotateRight hroot
          exact ⟨hx, by rw [hy]; simp⟩
        · rw [if_neg h2]
          exact ⟨hroot, by simp⟩
    · by_cases h2 : rk < k
      · rcases hres : searchOrInsertNode r k pr with ⟨r2, b2, k2⟩
        cases b2 with
        | false => simp [searchOrInsertNode, if_neg h1, if_pos h2, hres] at h
        | true =>
          have hih := ihr hcr (by rw [hres])
          rw [hres] at hih
          simp only at hih
          obtain ⟨ha, hn⟩ := hih
          simp only [searchOrInsertNode, if_neg h1, if_pos h2, hres]
          have hroot : checkCounter (node rk rp (rc + 1) l r2) = true := by
            rw [checkCounter_node_iff]; exact ⟨by omega, hcl, ha⟩
          by_cases h3 : pr < rp
          · rw [if_pos h3]
            obtain ⟨hx, hy⟩ := checkCounter_rotateLeft hroot
            exact ⟨hx, by rw [hy]; simp⟩
          · rw [if_neg h3]
            exact ⟨hroot, by simp⟩
      · simp [searchOrInsertNode, if_neg h1, if_neg h2] at h

theorem searchOrInsertNode_heap_true {t : Tree α} {k : α} {pr : ℕ}
    (ht : checkTreap t = true) (hpr : pr ≤ maxPrio)
    (h : (searchOrInsertNode t k pr).2.1 = true) :
    checkTreap ((searchOrInsertNode t k pr).1) = true ∧
      prio ((searchOrInsertNode t k pr).1) = min pr (prio t) := by
  induction t with
  | null =>
    refine ⟨?_, ?_⟩
    · rw [searchOrInsertNode]
      rw [checkTreap_node_iff]
      exact ⟨by simpa using hpr, by simpa using hpr, rfl, rfl⟩
    · rw [searchOrInsertNode]
      simp only [prio_node, prio_null]
      exact (min_eq_left hpr).symm
  | node rk rp rc l r ihl ihr =>
    rcases checkTreap_node_iff.1 ht with ⟨hrl, hrr, htl, htr⟩
    by_cases h1 : k < rk
    · rcases hres : searchOrInsertNode l k pr with ⟨l2, b2, k2⟩
      cases b2 with
      | false => simp [searchOrInsertNode, if_pos h1, hres] at h
      | true =>
        have hih := ihl htl (by rw [hres])
        have hprios := @searchOrInsertNode_prios_true α _ l k pr (by rw [hres])
        rw [hres] at hih hprios
        simp only at hih hprios
        obtain ⟨hres_t, hres_p⟩ := hih
        simp only [searchOrInsertNode, if_pos h1, hres]
        by_cases h2 : pr < rp
        · rw [if_pos h2]
          have hl2p : prio l2 = pr := by
            rw [hres_p]
            exact min_eq_left (le_of_lt (lt_of_lt_of_le h2 hrl))
          have hrp_max : rp ≤ maxPrio := le_trans hrl (prio_le_maxPrio htl)
          cases l2 with
          | null => simp only [prio_null] at hl2p; omega
          | node qk qp qc ql qr =>
            simp only [prio_node] at hl2p
            rcases checkTreap_node_iff.1 hres_t with ⟨hq1, hq2, hq3, hq4⟩
            have hprios2 : prios ql + prios qr = prios l := by
              have hx : (qp ::ₘ (prios ql + prios qr)) = pr ::ₘ prios l := by
                simpa [prios] using hprios
              rw [hl2p] at hx
              exact (Multiset.cons_inj_right _).1 hx
            have hqr_ge : rp ≤ prio qr := by
              cases hqre : qr with
              | null => simpa using hrp_max
              | node w x y z v =>
                have hmem : prio qr ∈ prios qr :=
                  prio_mem_prios (by rw [hqre]; intro hc2; exact Tree.noConfusion hc2)
                have hmem2 : prio qr ∈ prios l := by
                  rw [← hprios2]
                  exact Multiset.mem_add.2 (Or.inr hmem)
                rw [← hqre]
                exact le_trans hrl (prio_le_of_mem_prios htl _ hmem2)
            simp only [rotateRight]
            refine ⟨?_, ?_⟩
            · rw [checkTreap_node_iff]
              refine ⟨hq1, by simp only [prio_node]; omega, hq3, ?_⟩
              rw [checkTreap_node_iff]
              exact ⟨hqr_ge, hrr, hq4, htr⟩
            · simp only [prio_node]
              rw [hl2p]
              exact (min_eq_left (le_of_lt h2)).symm
        · rw [if_neg h2]
          have hle : rp ≤ prio l2 := by
            rw [hres_p]
            exact le_min (not_lt.1 h2) hrl
          refine ⟨?_, ?_⟩
          · rw [checkTreap_node_iff]
            exact ⟨hle, hrr, hres_t, htr⟩
          · simp only [prio_node]
            exact (min_eq_right (not_lt.1 h2)).symm
    · by_cases h2 : rk < k
      · rcases hres : searchOrInsertNode r k pr with ⟨r2, b2, k2⟩
        cases b2 with
        | false => simp [searchOrInsertNode, if_neg h1, if_pos h2, hres] at h
        | true =>
          have hih := ihr htr (by rw [hres])
          have hprios := @searchOrInsertNode_prios_true α _ r k pr (by rw [hres])
          rw [hres] at hih hprios
          simp only at hih hprios
          obtain ⟨hres_t, hres_p⟩ := hih
          simp only [searchOrInsertNode, if_neg h1, if_pos h2, hres]
          by_cases h3 : pr < rp
          · rw [if_pos h3]
            have hr2p : prio r2 = pr := by
              rw [hres_p]
              exact min_eq_left (le_of_lt (lt_of_lt_of_le h3 hrr))
            have hrp_max : rp ≤ maxPrio := le_trans hrr (prio_le_maxPrio htr)
            cases r2 with
            | null => simp only [prio_null] at hr2p; omega
            | node qk qp qc ql qr =>
              simp only [prio_node] at hr2p
              rcases checkTreap_node_iff.1 hres_t with ⟨hq1, hq2, hq3, hq4⟩
              have hprios2 : prios ql + prios qr = prios r := by
                have hx : (qp ::ₘ (prios ql + prios qr)) = pr ::ₘ prios r := by
                  simpa [prios] using hprios
                rw [hr2p] at hx
                exact (Multiset.cons_inj_right _).1 hx
              have hql_ge : rp ≤ prio ql := by
                cases hqle : ql with
                | null => simpa using hrp_max
                | node w x y z v =>
                  have hmem : prio ql ∈ prios ql :=
                    prio_mem_prios (by rw [hqle]; intro hc2; exact Tree.noConfusion hc2)
                  have hmem2 : prio ql ∈ prios r := by
                    rw [← hprios2]
                    exact Multiset.mem_add.2 (Or.inl hmem)
                  rw [← hqle]
                  exact le_trans hrr (prio_le_of_mem_prios htr _ hmem2)
              simp only [rotateLeft]
              refine ⟨?_, ?_⟩
              · rw [checkTreap_node_iff]
                refine ⟨by simp only [prio_node]; omega, hq2, ?_, hq4⟩
                rw [checkTreap_node_iff]
                exact ⟨hrl, hql_ge, htl, hq3⟩
              · simp only [prio_node]
                rw [hr2p]
                exact (min_eq_left (le_of_lt h3)).symm
          · rw [if_neg h3]
            have hle : rp ≤ prio r2 := by
              rw [hres_p]
              exact le_min (not_lt.1 h3) hrr
            refine ⟨?_, ?_⟩
            · rw [checkTreap_node_iff]
              exact ⟨hrl, hle, htl, hres_t⟩
            · simp only [prio_node]
              exact (min_eq_right (not_lt.1 h3)).symm
      · simp [searchOrInsertNode, if_neg h1, if_neg h2] at h

theorem searchOrInsertNode_bst_true {t : Tree α} {k : α} {pr : ℕ}
    (hb : checkBSTStrict t = true) (h : (searchOrInsertNode t k pr).2.1 = true) :
    checkBSTStrict ((searchOrInsertNode t k pr).1) = true := by
  induction t with
  | null => simp [searchOrInsertNode, checkBSTStrict, allKeys]
  | node rk rp rc l r ihl ihr =>
    have hb' := hb
    simp only [checkBSTStrict, Bool.and_eq_true, allKeys_iff, decide_eq_true_eq] at hb'
    obtain ⟨⟨⟨hkl, hkr⟩, hbl⟩, hbr⟩ := hb'
    by_cases h1 : k < rk
    · rcases hres : searchOrInsertNode l k pr with ⟨l2, b2, k2⟩
      cases b2 with
      | false => simp [searchOrInsertNode, if_pos h1, hres] at h
      | true =>
        have hperm := @searchOrInsertNode_keys_true α _ l k pr (by rw [hres])
        have hbst := ihl hbl (by rw [hres])
        rw [hres] at hperm hbst
        simp only at hperm hbst
        simp only [searchOrInsertNode, if_pos h1, hres]
        have hroot : checkBSTStrict (node rk rp (rc + 1) l2 r) = true := by
          simp only [checkBSTStrict, Bool.and_eq_true, allKeys_iff, decide_eq_true_eq]
          refine ⟨⟨⟨fun x hx => ?_, hkr⟩, hbst⟩, hbr⟩
          rcases List.mem_cons.1 (hperm.mem_iff.1 hx) with rfl | hx2
          · exact h1
          · exact hkl x hx2
        by_cases h2 : pr < rp
        · rw [if_pos h2]
          rw [checkBSTStrict_iff, keys_rotateRight, ← checkBSTStrict_iff]
          exact hroot
        · rw [if_neg h2]; exact hroot
    · by_cases h2 : rk < k
      · rcases hres : searchOrInsertNode r k pr with ⟨r2, b2, k2⟩
        cases b2 with
        | false => simp [searchOrInsertNode, if_neg h1, if_pos h2, hres] at h
        | true =>
          have hperm := @searchOrInsertNode_keys_true α _ r k pr (by rw [hres])
          have hbst := ihr hbr (by rw [hres])
          rw [hres] at hperm hbst
          simp only at hperm hbst
          simp only [searchOrInsertNode, if_neg h1, if_pos h2, hres]
          have hroot : checkBSTStrict (node rk rp (rc + 1) l r2) = true := by
            simp only [checkBSTStrict, Bool.and_eq_true, allKeys_iff, decide_eq_true_eq]
            refine ⟨⟨⟨hkl, fun x hx => ?_⟩, hbl⟩, hbst⟩
            rcases List.mem_cons.1 (hperm.mem_iff.1 hx) with rfl | hx2
            · exact h2
            · exact hkr x hx2
          by_cases h3 : pr < rp
          · rw [if_pos h3]
            rw [checkBSTStrict_iff, keys_rotateLeft, ← checkBSTStrict_iff]
            exact hroot
          · rw [if_neg h3]; exact hroot
      · simp [searchOrInsertNode, if_neg h1, if_neg h2] at h

/-! ## `Min` / `Max` -/

theorem keys_ne_nil {k : α} {p : ℕ} {c : ℤ} {l r : Tree α} :
    keys (node k p c l r) ≠ [] := by
  simp [keys_node]

theorem Min_eq_head (t : Tree α) : Min t = (keys t).head? := by
  induction t with
  | null => rfl
  | node k p c l r ihl ihr =>
    cases l with
    | null => simp [Min]
    | node lk lp lc ll lr =>
      have h2 : (keys (node lk lp lc ll lr) ++ (k :: keys r)).head? =
          (keys (node lk lp lc ll lr)).head? := List.head?_append_of_ne_nil _ keys_ne_nil
      calc Min (node k p c (node lk lp lc ll lr) r)
          = Min (node lk lp lc ll lr) := rfl
        _ = (keys (node lk lp lc ll lr)).head? := ihl
        _ = (keys (node k p c (node lk lp lc ll lr) r)).head? := h2.symm

theorem Max_eq_getLast (t : Tree α) : Max t = (keys t).getLast? := by
  induction t with
  | null => rfl
  | node k p c l r ihl ihr =>
    cases r with
    | null =>
      have h2 : (keys l ++ (k :: ([] : List α))).getLast? = ((k :: []) : List α).getLast? :=
        List.getLast?_append_of_ne_nil _ (by simp)
      calc Max (node k p c l null) = some k := rfl
        _ = ((k :: []) : List α).getLast? := rfl
        _ = (keys (node k p c l null)).getLast? := h2.symm
    | node rk rp rc rl rr =>
      have h2 : (keys l ++ (k :: keys (node rk rp rc rl rr))).getLast? =
          (k :: keys (node rk rp rc rl rr)).getLast? :=
        List.getLast?_append_of_ne_nil _ (by simp)
      have h3 : (((k :: []) : List α) ++ keys (node rk rp rc rl rr)).getLast? =
          (keys (node rk rp rc rl rr)).getLast? :=
        List.getLast?_append_of_ne_nil _ keys_ne_nil
      calc Max (node k p c l (node rk rp rc rl rr))
          = Max (node rk rp rc rl rr) := rfl
        _ = (keys (node rk rp rc rl rr)).getLast? := ihr
        _ = (k :: keys (node rk rp rc rl rr)).getLast? := h3.symm
        _ = (keys (node k p c l (node rk rp rc rl rr))).getLast? := h2.symm

/-! ## `__splitByKeyDup` -/

theorem splitByKeyDup_keys {t : Tree α} {k : α} (hb : checkBSTDup t = true) :
    keys (splitByKeyDup t k).1 = (keys t).filter (fun x => decide (x ≤ k)) ∧
      keys (splitByKeyDup t k).2 = (keys t).filter (fun x => decide (k < x)) := by
  induction t with
  | null => simp [splitByKeyDup]
  | node rk rp rc l r ihl ihr =>
    have hb' := hb
    simp only [checkBSTDup, Bool.and_eq_true, allKeys_iff, decide_eq_true_eq] at hb'
    obtain ⟨⟨⟨hkl, hkr⟩, hbl⟩, hbr⟩ := hb'
    by_cases h1 : k < rk
    · obtain ⟨ih1, ih2⟩ := ihl hbl
      simp only [splitByKeyDup, if_pos h1, keys_node, List.filter_append, List.filter_cons]
      have hrk : (decide (rk ≤ k)) = false := by
        simp only [decide_eq_false_iff_not, not_le]; exact h1
      have hrk2 : (decide (k < rk)) = true := by simpa using h1
      have hfr1 : (keys r).filter (fun x => decide (x ≤ k)) = [] := by
        rw [List.filter_eq_nil_iff]
        intro a ha
        simp only [decide_eq_true_eq, not_le]
        exact lt_of_lt_of_le h1 (hkr a ha)
      have hfr2 : (keys r).filter (fun x => decide (k < x)) = keys r := by
        rw [List.filter_eq_self]
        intro a ha
        simpa using lt_of_lt_of_le h1 (hkr a ha)
      refine ⟨?_, ?_⟩ <;> simp [ih1, ih2, hrk, hrk2, hfr1, hfr2]
    · obtain ⟨ih1, ih2⟩ := ihr hbr
      have hrk_le : rk ≤ k := not_lt.1 h1
      simp only [splitByKeyDup, if_neg h1, keys_node, List.filter_append, List.filter_cons]
      have hrk : (decide (rk ≤ k)) = true := by simpa using hrk_le
      have hrk2 : (decide (k < rk)) = false := by simpa using h1
      have hfl1 : (keys l).filter (fun x => decide (x ≤ k)) = keys l := by
        rw [List.filter_eq_self]
        intro a ha
        simpa using le_trans (hkl a ha) hrk_le
      have hfl2 : (keys l).filter (fun x => decide (k < x)) = [] := by
        rw [List.filter_eq_nil_iff]
        intro a ha
        simp only [decide_eq_true_eq, not_lt]
        exact le_trans (hkl a ha) hrk_le
      refine ⟨?_, ?_⟩ <;> simp [ih1, ih2, hrk, hrk2, hfl1, hfl2]

theorem splitByKeyDup_count {t : Tree α} {k : α} (hc : checkCounter t = true) :
    checkCounter (splitByKeyDup t k).1 = true ∧
      checkCounter (splitByKeyDup t k).2 = true ∧
      countv (splitByKeyDup t k).1 + countv (splitByKeyDup t k).2 = countv t := by
  induction t with
  | null => simp [splitByKeyDup]
  | node rk rp rc l r ihl ihr =>
    rcases checkCounter_node_iff.1 hc with ⟨hcc, hcl, hcr⟩
    by_cases h1 : k < rk
    · obtain ⟨ih1, ih2, ih3⟩ := ihl hcl
      simp only [splitByKeyDup, if_pos h1]
      refine ⟨ih1, ?_, ?_⟩
      · rw [checkCounter_node_iff]
        exact ⟨by omega, ih2, hcr⟩
      · simp only [countv_node]
        omega
    · obtain ⟨ih1, ih2, ih3⟩ := ihr hcr
      simp only [splitByKeyDup, if_neg h1]
      refine ⟨?_, ih2, ?_⟩
      · rw [checkCounter_node_iff]
        exact ⟨by omega, hcl, ih1⟩
      · simp only [countv_node]
        omega

theorem splitByKeyDup_heap {t : Tree α} {k : α} (ht : checkTreap t = true) :
    checkTreap (splitByKeyDup t k).1 = true ∧
      checkTreap (splitByKeyDup t k).2 = true ∧
      prio t ≤ prio (splitByKeyDup t k).1 ∧
      prio t ≤ prio (splitByKeyDup t k).2 := by
  induction t with
  | null =>
    simp only [splitByKeyDup]
    exact ⟨rfl, rfl, le_refl _, le_refl _⟩
  | node rk rp rc l r ihl ihr =>
    rcases checkTreap_node_iff.1 ht with ⟨hrl, hrr, htl, htr⟩
    by_cases h1 : k < rk
    · obtain ⟨ih1, ih2, ih3, ih4⟩ := ihl htl
      simp only [splitByKeyDup, if_pos h1]
      refine ⟨ih1, ?_, le_trans hrl ih3, by simp only [prio_node]; exact le_refl rp⟩
      rw [checkTreap_node_iff]
      exact ⟨le_trans hrl ih4, hrr, ih2, htr⟩
    · obtain ⟨ih1, ih2, ih3, ih4⟩ := ihr htr
      simp only [splitByKeyDup, if_neg h1]
      refine ⟨?_, ih2, by simp only [prio_node]; exact le_refl rp, le_trans hrr ih4⟩
      rw [checkTreap_node_iff]
      exact ⟨hrl, le_trans hrr ih3, htl, ih1⟩

/-! ## `__splitPos` -/

theorem splitPos_some {t : Tree α} {i : ℤ} (hc : checkCounter t = true)
    (hlo : 0 ≤ i) (hhi : i < countv t) :
    ∃ a b, splitPos t i = some (a, b) := by
  induction t generalizing i with
  | null => simp only [countv_null] at hhi; omega
  | node rk rp rc l r ihl ihr =>
    rcases checkCounter_node_iff.1 hc with ⟨hcc, hcl, hcr⟩
    by_cases h1 : i = countv l
    · refine ⟨node rk rp (rc - countv r) l null, r, ?_⟩
      simp only [splitPos]
      rw [if_pos h1]
    · by_cases h2 : i < countv l
      · obtain ⟨a, b, hab⟩ := ihl hcl hlo h2
        refine ⟨a, node rk rp (rc - countv a) b r, ?_⟩
        simp only [splitPos]
        rw [if_neg h1, if_pos h2, hab]
      · have hlr := countv_nonneg hcr
        have hll := countv_nonneg hcl
        simp only [countv_node] at hhi
        obtain ⟨a, b, hab⟩ := ihr hcr (i := i - (countv l + 1)) (by omega) (by omega)
        refine ⟨node rk rp (rc - countv b) l a, b, ?_⟩
        simp only [splitPos]
        rw [if_neg h1, if_neg h2, hab]

theorem splitPos_keys {t : Tree α} {i : ℤ} {a b : Tree α}
    (h : splitPos t i = some (a, b)) : keys a ++ keys b = keys t := by
  induction t generalizing i a b with
  | null => simp [splitPos] at h
  | node rk rp rc l r ihl ihr =>
    by_cases h1 : i = countv l
    · simp only [splitPos, if_pos h1, Option.some.injEq, Prod.mk.injEq] at h
      obtain ⟨rfl, rfl⟩ := h.symm
      simp [List.append_assoc]
    · by_cases h2 : i < countv l
      · cases hres : splitPos l i with
        | none => simp [splitPos, h1, h2, hres] at h
        | some p =>
          obtain ⟨la, lb⟩ := p
          simp only [splitPos, if_neg h1, if_pos h2, hres, Option.some.injEq,
            Prod.mk.injEq] at h
          obtain ⟨rfl, rfl⟩ := h.symm
          simp only [keys_node, ← ihl hres, List.append_assoc]
      · cases hres : splitPos r (i - (countv l + 1)) with
        | none => simp [splitPos, h1, h2, hres] at h
        | some p =>
          obtain ⟨ra, rb⟩ := p
          simp only [splitPos, if_neg h1, if_neg h2, hres, Option.some.injEq,
            Prod.mk.injEq] at h
          obtain ⟨rfl, rfl⟩ := h.symm
          simp only [keys_node, ← ihr hres, List.append_assoc, List.cons_append]

theorem splitPos_count {t : Tree α} {i : ℤ} {a b : Tree α}
    (hc : checkCounter t = true) (h : splitPos t i = some (a, b)) :
    checkCounter a = true ∧ checkCounter b = true ∧
      countv a = i + 1 ∧ countv a + countv b = countv t := by
  induction t generalizing i a b with
  | null => simp [splitPos] at h
  | node rk rp rc l r ihl ihr =>
    rcases checkCounter_node_iff.1 hc with ⟨hcc, hcl, hcr⟩
    by_cases h1 : i = countv l
    · simp only [splitPos, if_pos h1, Option.some.injEq, Prod.mk.injEq] at h
      obtain ⟨rfl, rfl⟩ := h.symm
      refine ⟨?_, hcr, ?_, ?_⟩
      · rw [checkCounter_node_iff]
        exact ⟨by simp only [countv_node, countv_null] at *; omega, hcl, rfl⟩
      · simp only [countv_node] at *; omega
      · simp only [countv_node] at *; omega
    · by_cases h2 : i < countv l
      · cases hres : splitPos l i with
        | none => simp [splitPos, h1, h2, hres] at h
        | some p =>
          obtain ⟨la, lb⟩ := p
          simp only [splitPos, if_neg h1, if_pos h2, hres, Option.some.injEq,
            Prod.mk.injEq] at h
          obtain ⟨rfl, rfl⟩ := h.symm
          obtain ⟨ih1, ih2, ih3, ih4⟩ := ihl hcl hres
          refine ⟨ih1, ?_, ih3, ?_⟩
          · rw [checkCounter_node_iff]
            exact ⟨by simp only [countv_node] at *; omega, ih2, hcr⟩
          · simp only [countv_node] at *; omega
      · cases hres : splitPos r (i - (countv l + 1)) with
        | none => simp [splitPos, h1, h2, hres] at h
        | some p =>
          obtain ⟨ra, rb⟩ := p
          simp only [splitPos, if_neg h1, if_neg h2, hres, Option.some.injEq,
            Prod.mk.injEq] at h
          obtain ⟨rfl, rfl⟩ := h.symm
          obtain ⟨ih1, ih2, ih3, ih4⟩ := ihr hcr hres
          refine ⟨?_, ih2, ?_, ?_⟩
          · rw [checkCounter_node_iff]
            exact ⟨by simp only [countv_node] at *; omega, hcl, ih1⟩
          · simp only [countv_node] at *; omega
          · simp only [countv_node] at *; omega

theorem splitPos_heap {t : Tree α} {i : ℤ} {a b : Tree α}
    (ht : checkTreap t = true) (h : splitPos t i = some (a, b)) :
    checkTreap a = true ∧ checkTreap b = true ∧
      prio t ≤ prio a ∧ prio t ≤ prio b := by
  induction t generalizing i a b with
  | null => simp [splitPos] at h
  | node rk rp rc l r ihl ihr =>
    rcases checkTreap_node_iff.1 ht with ⟨hrl, hrr, htl, htr⟩
    by_cases h1 : i = countv l
    · simp only [splitPos, if_pos h1, Option.some.injEq, Prod.mk.injEq] at h
      obtain ⟨rfl, rfl⟩ := h.symm
      refine ⟨?_, htr, by simp only [prio_node]; exact le_refl rp, hrr⟩
      rw [checkTreap_node_iff]
      exact ⟨hrl, by simp only [prio_null]; exact le_trans hrr (prio_le_maxPrio htr),
        htl, rfl⟩
    · by_cases h2 : i < countv l
      · cases hres : splitPos l i with
        | none => simp [splitPos, h1, h2, hres] at h
        | some p =>
          obtain ⟨la, lb⟩ := p
          simp only [splitPos, if_neg h1, if_pos h2, hres, Option.some.injEq,
            Prod.mk.injEq] at h
          obtain ⟨rfl, rfl⟩ := h.symm
          obtain ⟨ih1, ih2, ih3, ih4⟩ := ihl htl hres
          refine ⟨ih1, ?_, le_trans hrl ih3, by simp only [prio_node]; exact le_refl rp⟩
          rw [checkTreap_node_iff]
          exact ⟨le_trans hrl ih4, hrr, ih2, htr⟩
      · cases hres : splitPos r (i - (countv l + 1)) with
        | none => simp [splitPos, h1, h2, hres] at h
        | some p =>
          obtain ⟨ra, rb⟩ := p
          simp only [splitPos, if_neg h1, if_neg h2, hres, Option.some.injEq,
            Prod.mk.injEq] at h
          obtain ⟨rfl, rfl⟩ := h.symm
          obtain ⟨ih1, ih2, ih3, ih4⟩ := ihr htr hres
          refine ⟨?_, ih2, by simp only [prio_node]; exact le_refl rp, le_trans hrr ih4⟩
          rw [checkTreap_node_iff]
          exact ⟨hrl, le_trans hrr ih3, htl, ih1⟩

/-! ## `__removePos` -/

theorem removePos_some {t : Tree α} {i : ℤ} (hc : checkCounter t = true)
    (hlo : 0 ≤ i) (hhi : i < countv t) :
    ∃ t2 ret, removePos t i = some (t2, ret) := by
  induction t generalizing i with
  | null => simp only [countv_null] at hhi; omega
  | node rk rp rc l r ihl ihr =>
    rcases checkCounter_node_iff.1 hc with ⟨hcc, hcl, hcr⟩
    by_cases h1 : i = countv l
    · refine ⟨joinExclusive l r, node rk rp 1 null null, ?_⟩
      simp only [removePos]
      rw [if_pos h1]
    · by_cases h2 : i < countv l
      · obtain ⟨t2, ret, hres⟩ := ihl hcl hlo h2
        refine ⟨node rk rp (rc - 1) t2 r, ret, ?_⟩
        simp only [removePos]
        rw [if_neg h1, if_pos h2, hres]
      · have hlr := countv_nonneg hcr
        have hll := countv_nonneg hcl
        simp only [countv_node] at hhi
        obtain ⟨t2, ret, hres⟩ := ihr hcr (i := i - (countv l + 1)) (by omega) (by omega)
        refine ⟨node rk rp (rc - 1) l t2, ret, ?_⟩
        simp only [removePos]
        rw [if_neg h1, if_neg h2, hres]

theorem removePos_keys {t : Tree α} {i : ℤ} {t2 ret : Tree α}
    (h : removePos t i = some (t2, ret)) :
    List.Sublist (keys t2) (keys t) ∧
      ∃ kk pp, ret = node kk pp 1 null null ∧ (keys t).Perm (kk :: keys t2) := by
  induction t generalizing i t2 ret with
  | null => simp [removePos] at h
  | node rk rp rc l r ihl ihr =>
    by_cases h1 : i = countv l
    · simp only [removePos, if_pos h1, Option.some.injEq, Prod.mk.injEq] at h
      obtain ⟨rfl, rfl⟩ := h.symm
      refine ⟨?_, rk, rp, rfl, ?_⟩
      · rw [joinExclusive_keys]
        exact List.Sublist.append (List.Sublist.refl _) (List.sublist_cons_self _ _)
      · rw [joinExclusive_keys]
        exact List.perm_middle
    · by_cases h2 : i < countv l
      · cases hres : removePos l i with
        | none => simp [removePos, h1, h2, hres] at h
        | some p =>
          obtain ⟨l2, ret2⟩ := p
          simp only [removePos, if_neg h1, if_pos h2, hres, Option.some.injEq,
            Prod.mk.injEq] at h
          obtain ⟨rfl, rfl⟩ := h.symm
          obtain ⟨hsub, kk, pp, hret, hperm⟩ := ihl hres
          refine ⟨List.Sublist.append hsub (List.Sublist.refl _), kk, pp, hret, ?_⟩
          simpa [keys] using hperm.append_right (rk :: keys r)
      · cases hres : removePos r (i - (countv l + 1)) with
        | none => simp [removePos, h1, h2, hres] at h
        | some p =>
          obtain ⟨r2, ret2⟩ := p
          simp only [removePos, if_neg h1, if_neg h2, hres, Option.some.injEq,
            Prod.mk.injEq] at h
          obtain ⟨rfl, rfl⟩ := h.symm
          obtain ⟨hsub, kk, pp, hret, hperm⟩ := ihr hres
          refine ⟨List.Sublist.append (List.Sublist.refl _) (List.Sublist.cons₂ _ hsub),
            kk, pp, hret, ?_⟩
          exact ((hperm.cons rk).append_left (keys l)).trans perm_cons_middle

theorem removePos_count {t : Tree α} {i : ℤ} {t2 ret : Tree α}
    (hc : checkCounter t = true) (h : removePos t i = some (t2, ret)) :
    checkCounter t2 = true ∧ countv t2 = countv t - 1 := by
  induction t generalizing i t2 ret with
  | null => simp [removePos] at h
  | node rk rp rc l r ihl ihr =>
    rcases checkCounter_node_iff.1 hc with ⟨hcc, hcl, hcr⟩
    by_cases h1 : i = countv l
    · simp only [removePos, if_pos h1, Option.some.injEq, Prod.mk.injEq] at h
      obtain ⟨rfl, rfl⟩ := h.symm
      obtain ⟨hx, hy⟩ := joinExclusive_count hcl hcr
      refine ⟨hx, ?_⟩
      simp only [countv_node]
      omega
    · by_cases h2 : i < countv l
      · cases hres : removePos l i with
        | none => simp [removePos, h1, h2, hres] at h
        | some p =>
          obtain ⟨l2, ret2⟩ := p
          simp only [removePos, if_neg h1, if_pos h2, hres, Option.some.injEq,
            Prod.mk.injEq] at h
          obtain ⟨rfl, rfl⟩ := h.symm
          obtain ⟨hx, hy⟩ := ihl hcl hres
          refine ⟨?_, by simp⟩
          rw [checkCounter_node_iff]
          exact ⟨by omega, hx, hcr⟩
      · cases hres : removePos r (i - (countv l + 1)) with
        | none => simp [removePos, h1, h2, hres] at h
        | some p =>
          obtain ⟨r2, ret2⟩ := p
          simp only [removePos, if_neg h1, if_neg h2, hres, Option.some.injEq,
            Prod.mk.injEq] at h
          obtain ⟨rfl, rfl⟩ := h.symm
          obtain ⟨hx, hy⟩ := ihr hcr hres
          refine ⟨?_, by simp⟩
          rw [checkCounter_node_iff]
          exact ⟨by omega, hcl, hx⟩

theorem removePos_heap {t : Tree α} {i : ℤ} {t2 ret : Tree α}
    (ht : checkTreap t = true) (h : removePos t i = some (t2, ret)) :
    checkTreap t2 = true ∧ prio t ≤ prio t2 := by
  induction t generalizing i t2 ret with
  | null => simp [removePos] at h
  | node rk rp rc l r ihl ihr =>
    rcases checkTreap_node_iff.1 ht with ⟨hrl, hrr, htl, htr⟩
    by_cases h1 : i = countv l
    · simp only [removePos, if_pos h1, Option.some.injEq, Prod.mk.injEq] at h
      obtain ⟨rfl, rfl⟩ := h.symm
      obtain ⟨hx, hy⟩ := joinExclusive_heap htl htr
      exact ⟨hx, by rw [hy]; exact le_min hrl hrr⟩
    · by_cases h2 : i < countv l
      · cases hres : removePos l i with
        | none => simp [removePos, h1, h2, hres] at h
        | some p =>
          obtain ⟨l2, ret2⟩ := p
          simp only [removePos, if_neg h1, if_pos h2, hres, Option.some.injEq,
            Prod.mk.injEq] at h
          obtain ⟨rfl, rfl⟩ := h.symm
          obtain ⟨hx, hy⟩ := ihl htl hres
          refine ⟨?_, by simp⟩
          rw [checkTreap_node_iff]
          exact ⟨le_trans hrl hy, hrr, hx, htr⟩
      · cases hres : removePos r (i - (countv l + 1)) with
        | none => simp [removePos, h1, h2, hres] at h
        | some p =>
          obtain ⟨r2, ret2⟩ := p
          simp only [removePos, if_neg h1, if_neg h2, hres, Option.some.injEq,
            Prod.mk.injEq] at h
          obtain ⟨rfl, rfl⟩ := h.symm
          obtain ⟨hx, hy⟩ := ihr htr hres
          refine ⟨?_, by simp⟩
          rw [checkTreap_node_iff]
          exact ⟨hrl, le_trans hrr hy, htl, hx⟩

/-! ## `__choose` and `__rank` -/

theorem chooseAux_rank {t : Tree α} {i : ℤ} (hb : checkBSTStrict t = true)
    (hc : checkCounter t = true) (hlo : 0 ≤ i) (hhi : i < countv t) :
    ∃ x, chooseAux t i = some x ∧ x ∈ keys t ∧ rankAux t x = i := by
  induction t generalizing i with
  | null => simp only [countv_null] at hhi; omega
  | node rk rp rc l r ihl ihr =>
    have hb' := hb
    simp only [checkBSTStrict, Bool.and_eq_true, allKeys_iff, decide_eq_true_eq] at hb'
    obtain ⟨⟨⟨hkl, hkr⟩, hbl⟩, hbr⟩ := hb'
    rcases checkCounter_node_iff.1 hc with ⟨hcc, hcl, hcr⟩
    by_cases h1 : i = countv l
    · refine ⟨rk, ?_, ?_, ?_⟩
      · simp only [chooseAux]
        rw [if_pos h1]
      · simp
      · simp only [rankAux, if_neg (lt_irrefl rk)]
        omega
    · by_cases h2 : i < countv l
      · obtain ⟨x, hcx, hmx, hrx⟩ := ihl hbl hcl hlo h2
        refine ⟨x, ?_, ?_, ?_⟩
        · simp only [chooseAux]
          rw [if_neg h1, if_pos h2, hcx]
        · simp only [keys_node, List.mem_append]
          exact Or.inl hmx
        · simp only [rankAux, if_pos (hkl x hmx)]
          exact hrx
      · have hlr := countv_nonneg hcr
        have hll := countv_nonneg hcl
        simp only [countv_node] at hhi
        obtain ⟨x, hcx, hmx, hrx⟩ := ihr hbr hcr (i := i - (countv l + 1))
          (by omega) (by omega)
        refine ⟨x, ?_, ?_, ?_⟩
        · simp only [chooseAux]
          rw [if_neg h1, if_neg h2, hcx]
        · simp only [keys_node, List.mem_append, List.mem_cons]
          exact Or.inr (Or.inr hmx)
        · have hgt : rk < x := hkr x hmx
          simp only [rankAux, if_neg (not_lt.2 (le_of_lt hgt)), if_pos hgt, hrx]
          have : i - (countv l + 1) ≠ notFound := by
            simp only [notFound]; omega
          rw [if_pos this]
          omega

theorem rankAux_choose {t : Tree α} {k : α} (hb : checkBSTStrict t = true)
    (hc : checkCounter t = true) (hmem : k ∈ keys t) :
    0 ≤ rankAux t k ∧ rankAux t k < countv t ∧
      chooseAux t (rankAux t k) = some k := by
  induction t with
  | null => simp [keys] at hmem
  | node rk rp rc l r ihl ihr =>
    have hb' := hb
    simp only [checkBSTStrict, Bool.and_eq_true, allKeys_iff, decide_eq_true_eq] at hb'
    obtain ⟨⟨⟨hkl, hkr⟩, hbl⟩, hbr⟩ := hb'
    rcases checkCounter_node_iff.1 hc with ⟨hcc, hcl, hcr⟩
    have hll := countv_nonneg hcl
    have hlr := countv_nonneg hcr
    by_cases h1 : k < rk
    · have hmeml : k ∈ keys l := by
        simp only [keys_node, List.mem_append, List.mem_cons] at hmem
        rcases hmem with hm | rfl | hm
        · exact hm
        · exact absurd h1 (lt_irrefl _)
        · exact absurd (hkr k hm) (not_lt.2 (le_of_lt h1))
      obtain ⟨ih0, ih1, ih2⟩ := ihl hbl hcl hmeml
      simp only [rankAux, if_pos h1]
      refine ⟨ih0, by simp only [countv_node]; omega, ?_⟩
      simp only [chooseAux]
      rw [if_neg (by omega), if_pos ih1]
      exact ih2
    · by_cases h2 : rk < k
      · have hmemr : k ∈ keys r := by
          simp only [keys_node, List.mem_append, List.mem_cons] at hmem
          rcases hmem with hm | rfl | hm
          · exact absurd (hkl k hm) (not_lt.2 (le_of_lt h2))
          · exact absurd h2 (lt_irrefl _)
          · exact hm
        obtain ⟨ih0, ih1, ih2⟩ := ihr hbr hcr hmemr
        simp only [rankAux, if_neg h1, if_pos h2]
        have hne : rankAux r k ≠ notFound := by
          simp only [notFound]; omega
        rw [if_pos hne]
        refine ⟨by omega, by simp only [countv_node]; omega, ?_⟩
        simp only [chooseAux]
        rw [if_neg (by omega), if_neg (by omega)]
        have harith : rankAux r k + countv l + 1 - (countv l + 1) = rankAux r k := by omega
        rw [harith]
        exact ih2
      · have heq : rk = k := le_antisymm (not_lt.1 h1) (not_lt.1 h2)
        simp only [rankAux, if_neg h1, if_neg h2]
        refine ⟨hll, by simp only [countv_node]; omega, ?_⟩
        simp only [chooseAux]
        simp [heq]

/-! ## `__joinDup` and `__union` -/

/-- The coercion of lists into multisets maps append to addition
definitionally. -/
theorem coe_append (l₁ l₂ : List α) :
    ((l₁ ++ l₂ : List α) : Multiset α) = (l₁ : Multiset α) + (l₂ : Multiset α) := rfl

theorem coe_cons (a : α) (l : List α) :
    ((a :: l : List α) : Multiset α) = a ::ₘ (l : Multiset α) := rfl

theorem joinDup_keys {s : Tree α} : ∀ {acc : Tree α},
    ((keys (joinDup acc s)) : Multiset α) = (keys acc : Multiset α) + (keys s : Multiset α) := by
  induction s with
  | null => intro acc; simp [joinDup]
  | node k p c l r ihl ihr =>
    intro acc
    rw [joinDup]
    rw [ihr, ihl]
    have hins : ((keys (insertNodeDup acc k p)) : Multiset α) = ↑(k :: keys acc) :=
      Multiset.coe_eq_coe.2 insertNodeDup_keys
    rw [hins]
    simp only [keys_node, coe_append, coe_cons, ← Multiset.singleton_add]
    abel

theorem joinDup_inv {s : Tree α} (hts : checkTreap s = true) : ∀ (acc : Tree α),
    checkBSTDup acc = true → checkTreap acc = true → checkCounter acc = true →
    checkBSTDup (joinDup acc s) = true ∧ checkTreap (joinDup acc s) = true ∧
      checkCounter (joinDup acc s) = true := by
  induction s with
  | null => intro acc hb ht hc; exact ⟨hb, ht, hc⟩
  | node k p c l r ihl ihr =>
    intro acc hb ht hc
    rcases checkTreap_node_iff.1 hts with ⟨_, _, htl, htr⟩
    have hpmax : p ≤ maxPrio := prio_le_maxPrio hts
    rw [joinDup]
    have h1b := @insertNodeDup_bst α _ acc k p hb
    obtain ⟨h1t, _⟩ := @insertNodeDup_heap α _ acc k p ht hpmax
    obtain ⟨h1c, _⟩ := @insertNodeDup_count α _ acc k p hc
    obtain ⟨h2b, h2t, h2c⟩ := ihl htl _ h1b h1t h1c
    exact ihr htr _ h2b h2t h2c

theorem unionAux_inv {s : Tree α} (hts : checkTreap s = true) : ∀ {acc : Tree α},
    checkBSTStrict acc = true → checkTreap acc = true → checkCounter acc = true →
    checkBSTStrict (unionAux acc s) = true ∧ checkTreap (unionAux acc s) = true ∧
      checkCounter (unionAux acc s) = true := by
  induction s with
  | null => intro acc hb ht hc; exact ⟨hb, ht, hc⟩
  | node k p c l r ihl ihr =>
    intro acc hb ht hc
    rcases checkTreap_node_iff.1 hts with ⟨_, _, htl, htr⟩
    have hpmax : p ≤ maxPrio := prio_le_maxPrio hts
    rw [unionAux]
    cases hins : insertNode acc k p with
    | none =>
      obtain ⟨h2b, h2t, h2c⟩ := ihl htl hb ht hc
      exact ihr htr h2b h2t h2c
    | some res =>
      have h1b := insertNode_bst hb hins
      obtain ⟨h1t, _⟩ := insertNode_heap ht hpmax hins
      obtain ⟨h1c, _⟩ := insertNode_count hc hins
      obtain ⟨h2b, h2t, h2c⟩ := ihl htl h1b h1t h1c
      exact ihr htr h2b h2t h2c

/-! ## `__intersectionPrefix` -/

theorem intersectionPrefix_inv {s : Tree α} (hts : checkTreap s = true) :
    ∀ (rhs result diff1 : Tree α),
    checkBSTDup rhs = true → checkTreap rhs = true → checkCounter rhs = true →
    checkBSTStrict result = true → checkTreap result = true → checkCounter result = true →
    checkBSTDup diff1 = true → checkTreap diff1 = true → checkCounter diff1 = true →
    (checkBSTDup (intersectionPrefix s (rhs, result, diff1)).1 = true ∧
      checkTreap (intersectionPrefix s (rhs, result, diff1)).1 = true ∧
      checkCounter (intersectionPrefix s (rhs, result, diff1)).1 = true) ∧
    (checkBSTStrict (intersectionPrefix s (rhs, result, diff1)).2.1 = true ∧
      checkTreap (intersectionPrefix s (rhs, result, diff1)).2.1 = true ∧
      checkCounter (intersectionPrefix s (rhs, result, diff1)).2.1 = true) ∧
    (checkBSTDup (intersectionPrefix s (rhs, result, diff1)).2.2 = true ∧
      checkTreap (intersectionPrefix s (rhs, result, diff1)).2.2 = true ∧
      checkCounter (intersectionPrefix s (rhs, result, diff1)).2.2 = true) := by
  induction s with
  | null =>
    intro rhs result diff1 h1 h2 h3 h4 h5 h6 h7 h8 h9
    rw [intersectionPrefix]
    exact ⟨⟨h1, h2, h3⟩, ⟨h4, h5, h6⟩, ⟨h7, h8, h9⟩⟩
  | node k p c l r ihl ihr =>
    intro rhs result diff1 h1 h2 h3 h4 h5 h6 h7 h8 h9
    rcases checkTreap_node_iff.1 hts with ⟨_, _, htl, htr⟩
    have hpmax : p ≤ maxPrio := prio_le_maxPrio hts
    rw [intersectionPrefix]
    cases hrem : removeNode rhs k with
    | none =>
      have hd1b := @insertNodeDup_bst α _ diff1 k p h7
      obtain ⟨hd1t, _⟩ := @insertNodeDup_heap α _ diff1 k p h8 hpmax
      obtain ⟨hd1c, _⟩ := @insertNodeDup_count α _ diff1 k p h9
      obtain ⟨⟨a1, a2, a3⟩, ⟨a4, a5, a6⟩, ⟨a7, a8, a9⟩⟩ :=
        ihl htl rhs result (insertNodeDup diff1 k p)
          h1 h2 h3 h4 h5 h6 hd1b hd1t hd1c
      exact ihr htr _ _ _ a1 a2 a3 a4 a5 a6 a7 a8 a9
    | some pq =>
      obtain ⟨rhs2, ret⟩ := pq
      have hr2b := removeNode_bst_dup h1 hrem
      obtain ⟨hr2t, _⟩ := removeNode_heap h2 hrem
      obtain ⟨hr2c, _⟩ := removeNode_count h3 hrem
      cases hins : insertNode result k p with
      | none =>
        obtain ⟨⟨a1, a2, a3⟩, ⟨a4, a5, a6⟩, ⟨a7, a8, a9⟩⟩ :=
          ihl htl rhs2 null diff1
            hr2b hr2t hr2c (by simp) (by simp) (by simp) h7 h8 h9
        exact ihr htr _ _ _ a1 a2 a3 a4 a5 a6 a7 a8 a9
      | some q =>
        have hqb := insertNode_bst h4 hins
        obtain ⟨hqt, _⟩ := insertNode_heap h5 hpmax hins
        obtain ⟨hqc, _⟩ := insertNode_count h6 hins
        obtain ⟨⟨a1, a2, a3⟩, ⟨a4, a5, a6⟩, ⟨a7, a8, a9⟩⟩ :=
          ihl htl rhs2 q diff1
            hr2b hr2t hr2c hqb hqt hqc h7 h8 h9
        exact ihr htr _ _ _ a1 a2 a3 a4 a5 a6 a7 a8 a9

/-- The multiset bookkeeping of the preorder intersection walk: every key of
the walked subtree `s` lands in the running intersection or in `diff1`, and
every key moved into the intersection was removed from `rhs`.  The walked
tree must be duplicate-free (strict BST) and its keys must be fresh for the
running intersection, otherwise the source's `q != nil` slip wipes the
intersection. -/
theorem intersectionPrefix_multiset {s : Tree α} :
    ∀ (rhs result diff1 : Tree α),
    checkBSTStrict s = true → checkBSTStrict result = true →
    (∀ x ∈ keys s, x ∉ keys result) →
    ((keys (intersectionPrefix s (rhs, result, diff1)).2.1 : Multiset α) +
        (keys (intersectionPrefix s (rhs, result, diff1)).2.2 : Multiset α) =
      (keys result : Multiset α) + (keys diff1 : Multiset α) + (keys s : Multiset α)) ∧
    ((keys (intersectionPrefix s (rhs, result, diff1)).1 : Multiset α) +
        (keys (intersectionPrefix s (rhs, result, diff1)).2.1 : Multiset α) =
      (keys rhs : Multiset α) + (keys result : Multiset α)) ∧
    checkBSTStrict (intersectionPrefix s (rhs, result, diff1)).2.1 = true ∧
    (∀ x, x ∈ keys (intersectionPrefix s (rhs, result, diff1)).2.1 →
      x ∈ keys result ∨ x ∈ keys s) := by
  induction s with
  | null =>
    intro rhs result diff1 _ hbres _
    rw [intersectionPrefix]
    refine ⟨by simp, by simp, hbres, fun x hx => Or.inl hx⟩
  | node k p c l r ihl ihr =>
    intro rhs result diff1 hbs hbres hdisj
    have hbs' := hbs
    simp only [checkBSTStrict, Bool.and_eq_true, allKeys_iff, decide_eq_true_eq] at hbs'
    obtain ⟨⟨⟨hkl, hkr⟩, hbl⟩, hbr⟩ := hbs'
    have hkroot : k ∈ keys (node k p c l r) := by simp
    have hknotres : k ∉ keys result := hdisj k hkroot
    rw [intersectionPrefix]
    cases hrem : removeNode rhs k with
    | none =>
      have hdisjl : ∀ x ∈ keys l, x ∉ keys result := fun x hx =>
        hdisj x (by simp only [keys_node, List.mem_append]; exact Or.inl hx)
      obtain ⟨Al, Bl, Cl, Dl⟩ :=
        ihl rhs result (insertNodeDup diff1 k p) hbl hbres hdisjl
      have hdisjr : ∀ x ∈ keys r,
          x ∉ keys (intersectionPrefix l (rhs, result, insertNodeDup diff1 k p)).2.1 := by
        intro x hx hmem
        have hxs : x ∈ keys (node k p c l r) := by
          simp only [keys_node, List.mem_append, List.mem_cons]
          exact Or.inr (Or.inr hx)
        rcases Dl x hmem with hm | hm
        · exact hdisj x hxs hm
        · exact absurd (hkl x hm) (not_lt.2 (le_of_lt (hkr x hx)))
      obtain ⟨Ar, Br, Cr, Dr⟩ := ihr
        (intersectionPrefix l (rhs, result, insertNodeDup diff1 k p)).1
        (intersectionPrefix l (rhs, result, insertNodeDup diff1 k p)).2.1
        (intersectionPrefix l (rhs, result, insertNodeDup diff1 k p)).2.2
        hbr Cl hdisjr
      have hdiffeq : ((keys (insertNodeDup diff1 k p)) : Multiset α) =
          {k} + (keys diff1 : Multiset α) := by
        rw [Multiset.coe_eq_coe.2 insertNodeDup_keys, coe_cons, Multiset.singleton_add]
      refine ⟨?_, ?_, Cr, ?_⟩
      · rw [Ar, Al, hdiffeq]
        simp only [keys_node, coe_append, coe_cons, ← Multiset.singleton_add]
        abel
      · rw [Br, Bl]
      · intro x hx
        rcases Dr x hx with hm | hm
        · rcases Dl x hm with hm2 | hm2
          · exact Or.inl hm2
          · exact Or.inr (by simp only [keys_node, List.mem_append]; exact Or.inl hm2)
        · exact Or.inr (by
            simp only [keys_node, List.mem_append, List.mem_cons]
            exact Or.inr (Or.inr hm))
    | some pq =>
      obtain ⟨rhs2, ret⟩ := pq
      obtain ⟨⟨pp, hretp⟩, _, hrperm⟩ := removeNode_spec hrem
      have hrhseq : (keys rhs : Multiset α) = {k} + (keys rhs2 : Multiset α) := by
        rw [Multiset.coe_eq_coe.2 hrperm, coe_cons, Multiset.singleton_add]
      cases hins : insertNode result k p with
      | none => exact absurd ((insertNode_eq_none_iff hbres).1 hins) hknotres
      | some q =>
        have hqeq : ((keys q) : Multiset α) = {k} + (keys result : Multiset α) := by
          rw [Multiset.coe_eq_coe.2 (insertNode_keys hins), coe_cons,
            Multiset.singleton_add]
        have hqb := insertNode_bst hbres hins
        have hdisjl : ∀ x ∈ keys l, x ∉ keys q := by
          intro x hx hmem
          rcases List.mem_cons.1 ((insertNode_keys hins).mem_iff.1 hmem) with rfl | hm
          · exact absurd (hkl x hx) (lt_irrefl x)
          · exact hdisj x (by simp only [keys_node, List.mem_append]; exact Or.inl hx) hm
        obtain ⟨Al, Bl, Cl, Dl⟩ :=
          ihl rhs2 q diff1 hbl hqb hdisjl
        have hdisjr : ∀ x ∈ keys r,
            x ∉ keys (intersectionPrefix l (rhs2, q, diff1)).2.1 := by
          intro x hx hmem
          have hxs : x ∈ keys (node k p c l r) := by
            simp only [keys_node, List.mem_append, List.mem_cons]
            exact Or.inr (Or.inr hx)
          rcases Dl x hmem with hm | hm
          · rcases List.mem_cons.1 ((insertNode_keys hins).mem_iff.1 hm) with rfl | hm2
            · exact absurd (hkr x hx) (lt_irrefl x)
            · exact hdisj x hxs hm2
          · exact absurd (hkl x hm) (not_lt.2 (le_of_lt (hkr x hx)))
        obtain ⟨Ar, Br, Cr, Dr⟩ := ihr
          (intersectionPrefix l (rhs2, q, diff1)).1
          (intersectionPrefix l (rhs2, q, diff1)).2.1
          (intersectionPrefix l (rhs2, q, diff1)).2.2
          hbr Cl hdisjr
        refine ⟨?_, ?_, Cr, ?_⟩
        · rw [Ar, Al, hqeq]
          simp only [keys_node, coe_append, coe_cons, ← Multiset.singleton_add]
          abel
        · rw [Br, Bl, hqeq, hrhseq]
          abel
        · intro x hx
          rcases Dr x hx with hm | hm
          · rcases Dl x hm with hm2 | hm2
            · rcases List.mem_cons.1 ((insertNode_keys hins).mem_iff.1 hm2) with rfl | hm3
              · exact Or.inr hkroot
              · exact Or.inl hm3
            · exact Or.inr (by simp only [keys_node, List.mem_append]; exact Or.inl hm2)
          · exact Or.inr (by
              simp only [keys_node, List.mem_append, List.mem_cons]
              exact Or.inr (Or.inr hm))

/-! ## Bundled invariants and order bounds -/

theorem Inv_iff {t : Tree α} : Inv t = true ↔
    checkBSTStrict t = true ∧ checkTreap t = true ∧ checkCounter t = true := by
  simp only [Inv, Bool.and_eq_true]
  tauto

theorem InvDup_iff {t : Tree α} : InvDup t = true ↔
    checkBSTDup t = true ∧ checkTreap t = true ∧ checkCounter t = true := by
  simp only [InvDup, Bool.and_eq_true]
  tauto

theorem countv_eq_zero_iff {t : Tree α} (hc : checkCounter t = true) :
    countv t = 0 ↔ t = null := by
  cases t with
  | null => simp
  | node k p c l r =>
    have := countv_pos hc
    constructor
    · intro h; rw [h] at this; exact absurd this (lt_irrefl 0)
    · intro h; exact Tree.noConfusion h

theorem sorted_head_le {l : List α} {b : α} (hp : l.Pairwise (· ≤ ·))
    (hh : l.head? = some b) : ∀ y ∈ l, b ≤ y := by
  cases l with
  | nil => exact absurd hh (by simp)
  | cons c rest =>
    obtain rfl : c = b := by simpa using hh
    intro y hy
    rcases List.mem_cons.1 hy with rfl | hy
    · exact le_refl y
    · exact (List.pairwise_cons.1 hp).1 y hy

theorem getLast?_mem {l : List α} {a : α} (h : l.getLast? = some a) : a ∈ l := by
  induction l with
  | nil => exact absurd h (by simp)
  | cons c rest ih =>
    cases rest with
    | nil =>
      obtain rfl : c = a := by simpa using h
      exact List.mem_cons_self _ _
    | cons d rest2 =>
      rw [List.getLast?_cons_cons] at h
      exact List.mem_cons.2 (Or.inr (ih h))

theorem sorted_le_getLast {l : List α} {a : α} (hp : l.Pairwise (· ≤ ·))
    (hl : l.getLast? = some a) : ∀ x ∈ l, x ≤ a := by
  induction l with
  | nil => simp
  | cons c rest ih =>
    cases rest with
    | nil =>
      obtain rfl : c = a := by simpa using hl
      intro x hx
      rcases List.mem_cons.1 hx with rfl | hx
      · exact le_refl x
      · exact absurd hx (by simp)
    | cons d rest2 =>
      rw [List.getLast?_cons_cons] at hl
      intro x hx
      rcases List.mem_cons.1 hx with rfl | hx
      · exact (List.pairwise_cons.1 hp).1 a (getLast?_mem hl)
      · exact ih (List.pairwise_cons.1 hp).2 hl x hx

theorem Max_isSome_of_ne_null {t : Tree α} (h : t ≠ null) : ∃ a, Max t = some a := by
  cases t with
  | null => exact absurd rfl h
  | node k p c l r =>
    rw [Max_eq_getLast]
    have : keys (node k p c l r) ≠ [] := keys_ne_nil
    cases hl : (keys (node k p c l r)).getLast? with
    | none => exact absurd (List.getLast?_eq_none_iff.1 hl) this
    | some a => exact ⟨a, rfl⟩

theorem Min_isSome_of_ne_null {t : Tree α} (h : t ≠ null) : ∃ a, Min t = some a := by
  cases t with
  | null => exact absurd rfl h
  | node k p c l r =>
    rw [Min_eq_head]
    have : keys (node k p c l r) ≠ [] := keys_ne_nil
    cases hl : (keys (node k p c l r)).head? with
    | none => exact absurd (List.head?_eq_none_iff.1 hl) this
    | some a => exact ⟨a, rfl⟩

/-- Everything `JoinExclusive` guarantees when it does not panic. -/
theorem JoinExclusive_some_inv {ts tg ts2 tg2 : Tree α}
    (hcts : checkCounter ts = true) (hctg : checkCounter tg = true)
    (htts : checkTreap ts = true) (httg : checkTreap tg = true)
    (h : JoinExclusive ts tg = some (ts2, tg2)) :
    tg2 = null ∧ keys ts2 = keys ts ++ keys tg ∧
      checkTreap ts2 = true ∧ checkCounter ts2 = true ∧
      countv ts2 = countv ts + countv tg ∧
      (checkBSTDup ts = true → checkBSTDup tg = true → checkBSTDup ts2 = true) ∧
      (checkBSTStrict ts = true → checkBSTStrict tg = true → checkBSTStrict ts2 = true) := by
  rw [JoinExclusive] at h
  by_cases hcond : Size ts ≠ 0 ∧ Size tg ≠ 0 ∧ ¬ optLess (Max ts) (Min tg)
  · rw [if_pos hcond] at h
    exact Option.noConfusion h
  · rw [if_neg hcond] at h
    obtain ⟨he1, he2⟩ : joinExclusive ts tg = ts2 ∧ null = tg2 := by
      simpa using h
    subst he1
    subst he2
    obtain ⟨hj1, hj2⟩ := joinExclusive_heap htts httg
    obtain ⟨hj3, hj4⟩ := joinExclusive_count hcts hctg
    have hlt : ∀ {R : α → α → Prop}, (∀ a b : α, a < b → R a b) →
        (keys ts).Pairwise (· ≤ ·) → (keys tg).Pairwise (· ≤ ·) →
        ∀ x ∈ keys ts, ∀ y ∈ keys tg, R x y := by
      intro R hR hps hpg x hx y hy
      by_cases hn1 : Size ts = 0
      · rw [(countv_eq_zero_iff hcts).1 hn1] at hx
        exact absurd hx (by simp)
      · by_cases hn2 : Size tg = 0
        · rw [(countv_eq_zero_iff hctg).1 hn2] at hy
          exact absurd hy (by simp)
        · push_neg at hcond
          have hopt : optLess (Max ts) (Min tg) = true := by
            simpa using hcond hn1 hn2
          have htsn : ts ≠ null := fun e => hn1 (by rw [Size, e]; rfl)
          have htgn : tg ≠ null := fun e => hn2 (by rw [Size, e]; rfl)
          obtain ⟨a, ha⟩ := Max_isSome_of_ne_null htsn
          obtain ⟨b, hb⟩ := Min_isSome_of_ne_null htgn
          rw [ha, hb] at hopt
          simp only [optLess, decide_eq_true_eq] at hopt
          have hxa : x ≤ a :=
            sorted_le_getLast hps (by rw [← Max_eq_getLast, ha]) x hx
          have hby : b ≤ y :=
            sorted_head_le hpg (by rw [← Min_eq_head, hb]) y hy
          exact hR x y (lt_of_le_of_lt hxa (lt_of_lt_of_le hopt hby))
    refine ⟨rfl, joinExclusive_keys ts tg, hj1, hj3, hj4, ?_, ?_⟩
    · intro hbt hbg
      rw [checkBSTDup_iff] at hbt hbg ⊢
      rw [joinExclusive_keys]
      rw [List.pairwise_append]
      exact ⟨hbt, hbg, hlt (fun a b hab => le_of_lt hab) hbt hbg⟩
    · intro hbt hbg
      rw [checkBSTStrict_iff] at hbt hbg ⊢
      rw [joinExclusive_keys]
      rw [List.pairwise_append]
      exact ⟨hbt, hbg,
        hlt (fun a b hab => hab) (hbt.imp le_of_lt) (hbg.imp le_of_lt)⟩

/-- `SplitByPosition` facts for a successful call. -/
theorem SplitByPosition_some_inv {t : Tree α} {i : ℤ} {a b rest : Tree α}
    (hc : checkCounter t = true) (ht : checkTreap t = true)
    (h : SplitByPosition t i = some ((a, b), rest)) :
    rest = null ∧ keys a ++ keys b = keys t ∧
      checkCounter a = true ∧ checkCounter b = true ∧
      checkTreap a = true ∧ checkTreap b = true ∧
      countv a + countv b = countv t ∧ countv a = i + 1 ∨
    rest = null ∧ a = t ∧ b = null ∧ i = countv t - 1 := by
  rw [SplitByPosition] at h
  by_cases h1 : i < 0 ∨ i ≥ countv t
  · rw [if_pos h1] at h
    exact Option.noConfusion h
  · rw [if_neg h1] at h
    by_cases h2 : i = countv t - 1
    · rw [if_pos h2] at h
      right
      obtain ⟨⟨ha, hb⟩, hr⟩ : (t = a ∧ null = b) ∧ null = rest := by
        simpa using h
      exact ⟨hr.symm, ha.symm, hb.symm, h2⟩
    · rw [if_neg h2] at h
      cases hres : splitPos t i with
      | none => rw [hres] at h; exact Option.noConfusion h
      | some p =>
        obtain ⟨pa, pb⟩ := p
        rw [hres] at h
        obtain ⟨⟨hpa, hpb⟩, hr⟩ : (pa = a ∧ pb = b) ∧ null = rest := by
          simpa using h
        subst hpa; subst hpb
        obtain ⟨hc1, hc2, hc3, hc4⟩ := splitPos_count hc hres
        obtain ⟨ht1, ht2, _, _⟩ := splitPos_heap ht hres
        exact Or.inl ⟨hr.symm, splitPos_keys hres, hc1, hc2, ht1, ht2, by omega, hc3⟩

/-! ## Claim theorems -/

/-- C2: on a tree satisfying the invariants, `Insert` of a present key
returns the absent indicator and leaves the tree completely unchanged, while
`Insert` of a fresh key returns the stored key and adds exactly that key to
the tree. -/
theorem C2_insert_contract {α : Type} [LinearOrder α] (t : Tree α) (k : α) (pr : ℕ)
    (hinv : Inv t = true) :
    (k ∈ keys t → Insert t k pr = (t, none)) ∧
    (k ∉ keys t →
      (Insert t k pr).2 = some k ∧ (keys (Insert t k pr).1).Perm (k :: keys t)) := by
  obtain ⟨hb, ht, hc⟩ := Inv_iff.1 hinv
  constructor
  · intro hmem
    have hnone : insertNode t k pr = none := (insertNode_eq_none_iff hb).2 hmem
    rw [Insert, hnone]
  · intro hmem
    cases hres : insertNode t k pr with
    | none => exact absurd ((insertNode_eq_none_iff hb).1 hres) hmem
    | some res =>
      rw [Insert, hres]
      exact ⟨rfl, insertNode_keys hres⟩

/-- Witness for C2 at a concrete tree: inserting the fresh key 7 into the
singleton tree {5}. -/
theorem C2_witness :
    Inv (node (5 : ℤ) 3 1 null null) = true ∧
      ((7 : ℤ) ∉ keys (node (5 : ℤ) 3 1 null null)) ∧
      (Insert (node (5 : ℤ) 3 1 null null) 7 10).2 = some 7 ∧
      (keys (Insert (node (5 : ℤ) 3 1 null null) 7 10).1).Perm
        (7 :: keys (node (5 : ℤ) 3 1 null null)) := by
  refine ⟨by decide, by decide, ?_⟩
  exact (C2_insert_contract (node (5 : ℤ) 3 1 null null) 7 10 (by decide)).2 (by decide)

/-- C3 (amended): `SplitByKey` sends the keys *not greater* than `k` —
including a key equal to `k` — to the first tree and the keys strictly
greater than `k` to the second; the source tree is emptied. -/
theorem C3_splitByKey_amended {α : Type} [LinearOrder α] (t : Tree α) (k : α)
    (hinv : InvDup t = true) :
    keys (SplitByKey t k).1.1 = (keys t).filter (fun x => decide (x ≤ k)) ∧
    keys (SplitByKey t k).1.2 = (keys t).filter (fun x => decide (k < x)) ∧
    (SplitByKey t k).2 = null := by
  obtain ⟨hb, ht, hc⟩ := InvDup_iff.1 hinv
  obtain ⟨h1, h2⟩ := splitByKeyDup_keys (k := k) hb
  exact ⟨h1, h2, rfl⟩

/-- C3 counterexample: on the singleton tree {5}, splitting by the key 5
puts the key equal to 5 into the *first* (less-or-equal) tree, not into the
second tree as the claim states. -/
theorem C3_counterexample :
    InvDup (node (5 : ℤ) 3 1 null null) = true ∧
      (5 : ℤ) ∈ keys (SplitByKey (node (5 : ℤ) 3 1 null null) 5).1.1 ∧
      (5 : ℤ) ∉ keys (SplitByKey (node (5 : ℤ) 3 1 null null) 5).1.2 := by
  decide

/-- Witness for C3 at a concrete tree. -/
theorem C3_witness :
    InvDup (node (5 : ℤ) 3 1 null null) = true ∧
      keys (SplitByKey (node (5 : ℤ) 3 1 null null) 5).1.1 =
        (keys (node (5 : ℤ) 3 1 null null)).filter (fun x => decide (x ≤ 5)) ∧
      keys (SplitByKey (node (5 : ℤ) 3 1 null null) 5).1.2 =
        (keys (node (5 : ℤ) 3 1 null null)).filter (fun x => decide ((5 : ℤ) < x)) ∧
      (SplitByKey (node (5 : ℤ) 3 1 null null) 5).2 = null := by
  refine ⟨by decide, ?_⟩
  exact C3_splitByKey_amended (node (5 : ℤ) 3 1 null null) 5 (by decide)

/-- C5: on a tree satisfying the invariants, `Remove` of an absent key
returns the absent indicator and leaves the tree unchanged; `Remove` of a
present key returns the stored key, removes exactly one occurrence of it and
decreases the stored size by exactly one. -/
theorem C5_remove_contract {α : Type} [LinearOrder α] (t : Tree α) (k : α)
    (hinv : InvDup t = true) :
    (k ∉ keys t → Remove t k = (t, none)) ∧
    (k ∈ keys t →
      (Remove t k).2 = some k ∧
      ((keys (Remove t k).1 : Multiset α) = (keys t : Multiset α).erase k) ∧
      countv (Remove t k).1 = countv t - 1) := by
  obtain ⟨hb, ht, hc⟩ := InvDup_iff.1 hinv
  constructor
  · intro hmem
    have hnone : removeNode t k = none := (removeNode_eq_none_iff hb).2 hmem
    rw [Remove, hnone]
  · intro hmem
    cases hres : removeNode t k with
    | none => exact absurd hmem ((removeNode_eq_none_iff hb).1 hres)
    | some p =>
      obtain ⟨t2, ret⟩ := p
      obtain ⟨⟨pp, hret⟩, hsub, hperm⟩ := removeNode_spec hres
      obtain ⟨hcnt, hcv⟩ := removeNode_count hc hres
      subst hret
      rw [Remove, hres]
      refine ⟨rfl, ?_, hcv⟩
      have : (keys t : Multiset α) = k ::ₘ (keys t2 : Multiset α) :=
        Multiset.coe_eq_coe.2 hperm
      rw [this, Multiset.erase_cons_head]

/-- Witness for C5: removing the root key 5 from the two-node tree
{3, 5}. -/
theorem C5_witness :
    InvDup (node (5 : ℤ) 3 2 (node 3 7 1 null null) null) = true ∧
      ((5 : ℤ) ∈ keys (node (5 : ℤ) 3 2 (node 3 7 1 null null) null)) ∧
      (Remove (node (5 : ℤ) 3 2 (node 3 7 1 null null) null) 5).2 = some 5 ∧
      ((keys (Remove (node (5 : ℤ) 3 2 (node 3 7 1 null null) null) 5).1 : Multiset ℤ) =
        ((keys (node (5 : ℤ) 3 2 (node 3 7 1 null null) null) : Multiset ℤ)).erase 5) ∧
      countv (Remove (node (5 : ℤ) 3 2 (node 3 7 1 null null) null) 5).1 =
        countv (node (5 : ℤ) 3 2 (node 3 7 1 null null) null) - 1 := by
  refine ⟨by decide, by decide, ?_⟩
  exact (C5_remove_contract (node (5 : ℤ) 3 2 (node 3 7 1 null null) null) 5
    (by decide)).2 (by decide)

/-- C9 (amended): `Min` and `Max` on the empty tree return the absent
indicator (`nil`); they do not fail loudly.  In general they return the
first and last key of the inorder sequence. -/
theorem C9_min_max_absent {α : Type} [LinearOrder α] :
    Min (null : Tree α) = none ∧ Max (null : Tree α) = none ∧
      ∀ t : Tree α, Min t = (keys t).head? ∧ Max t = (keys t).getLast? :=
  ⟨rfl, rfl, fun t => ⟨Min_eq_head t, Max_eq_getLast t⟩⟩

/-- C9 counterexample: on the empty tree the code returns the absent
indicator `nil` from both `Min` and `Max` — it does not panic, contrary to
the claim. -/
theorem C9_counterexample :
    Min (null : Tree ℤ) = none ∧ Max (null : Tree ℤ) = none := ⟨rfl, rfl⟩

/-- C10: a forward iterator on the empty tree is constructed successfully
with no current item; a reverse iterator construction panics on the empty
tree, and `ResetLast` panics exactly when the captured tree was empty. -/
theorem C10_iterator_contract {α : Type} [LinearOrder α] :
    HasCurr (NewIterator (null : Tree α)) = false ∧
    NewReverseIterator (null : Tree α) = none ∧
    ∀ t : Tree α, checkCounter t = true →
      (ResetLast (NewIterator t) = none ↔ t = null) := by
  refine ⟨rfl, rfl, ?_⟩
  intro t hc
  have hN : (NewIterator t).N = countv t := by
    rw [NewIterator, setupIterator]
    split <;> rfl
  by_cases hz : countv t = 0
  · simp only [ResetLast, hN, if_pos hz]
    simp [(countv_eq_zero_iff hc).1 hz]
  · simp only [ResetLast, hN, if_neg hz]
    constructor
    · intro hcon; exact Option.noConfusion hcon
    · intro hcon
      subst hcon
      exact absurd rfl hz

/-- Witness for C10 at a concrete nonempty tree: `ResetLast` succeeds. -/
theorem C10_witness :
    checkCounter (node (5 : ℤ) 3 1 null null) = true ∧
      (ResetLast (NewIterator (node (5 : ℤ) 3 1 null null)) = none ↔
        (node (5 : ℤ) 3 1 null null : Tree ℤ) = null) := by
  refine ⟨by decide, ?_⟩
  exact (C10_iterator_contract).2.2 (node (5 : ℤ) 3 1 null null) (by decide)

/-- C6: on count-correct trees, `JoinExclusive` panics exactly when both
trees are non-empty and the maximum of the receiver is not strictly less
than the minimum of the argument; when it does not panic, the receiver ends
up with the concatenation of both key sequences (so joining with an empty
operand keeps the other operand's keys unchanged) and the argument is
emptied. -/
theorem C6_joinExclusive_contract {α : Type} [LinearOrder α] (ts tg : Tree α)
    (hcts : checkCounter ts = true) (hctg : checkCounter tg = true) :
    (JoinExclusive ts tg = none ↔
      ts ≠ null ∧ tg ≠ null ∧
        ∃ a b, Max ts = some a ∧ Min tg = some b ∧ ¬ a < b) ∧
    (∀ ts2 tg2, JoinExclusive ts tg = some (ts2, tg2) →
      keys ts2 = keys ts ++ keys tg ∧ tg2 = null) := by
  have hguard : JoinExclusive ts tg = none ↔
      (Size ts ≠ 0 ∧ Size tg ≠ 0 ∧ ¬ optLess (Max ts) (Min tg)) := by
    rw [JoinExclusive]
    by_cases hcond : Size ts ≠ 0 ∧ Size tg ≠ 0 ∧ ¬ optLess (Max ts) (Min tg)
    · rw [if_pos hcond]; simpa using hcond
    · rw [if_neg hcond]
      constructor
      · intro hcon; exact Option.noConfusion hcon
      · intro hcon; exact absurd hcon hcond
  constructor
  · rw [hguard]
    have hts : Size ts ≠ 0 ↔ ts ≠ null := not_congr (countv_eq_zero_iff hcts)
    have htg : Size tg ≠ 0 ↔ tg ≠ null := not_congr (countv_eq_zero_iff hctg)
    constructor
    · rintro ⟨h1, h2, h3⟩
      refine ⟨hts.1 h1, htg.1 h2, ?_⟩
      obtain ⟨a, ha⟩ := Max_isSome_of_ne_null (hts.1 h1)
      obtain ⟨b, hb⟩ := Min_isSome_of_ne_null (htg.1 h2)
      refine ⟨a, b, ha, hb, ?_⟩
      rw [ha, hb] at h3
      simpa [optLess] using h3
    · rintro ⟨h1, h2, a, b, ha, hb, hab⟩
      refine ⟨hts.2 h1, htg.2 h2, ?_⟩
      rw [ha, hb]
      simpa [optLess] using hab
  · intro ts2 tg2 h
    rw [JoinExclusive] at h
    by_cases hcond : Size ts ≠ 0 ∧ Size tg ≠ 0 ∧ ¬ optLess (Max ts) (Min tg)
    · rw [if_pos hcond] at h
      exact Option.noConfusion h
    · rw [if_neg hcond] at h
      obtain ⟨he1, he2⟩ : joinExclusive ts tg = ts2 ∧ null = tg2 := by simpa using h
      exact ⟨he1 ▸ joinExclusive_keys ts tg, he2.symm⟩

/-- Witness for C6: joining {1} with {2} succeeds, and joining {2} with {1}
panics. -/
theorem C6_witness :
    checkCounter (node (1 : ℤ) 3 1 null null) = true ∧
      checkCounter (node (2 : ℤ) 5 1 null null) = true ∧
      (∀ ts2 tg2,
        JoinExclusive (node (1 : ℤ) 3 1 null null) (node (2 : ℤ) 5 1 null null) =
          some (ts2, tg2) →
        keys ts2 = keys (node (1 : ℤ) 3 1 null null) ++
            keys (node (2 : ℤ) 5 1 null null) ∧ tg2 = null) ∧
      JoinExclusive (node (2 : ℤ) 5 1 null null) (node (1 : ℤ) 3 1 null null) = none := by
  refine ⟨by decide, by decide,
    (C6_joinExclusive_contract (node (1 : ℤ) 3 1 null null)
      (node (2 : ℤ) 5 1 null null) (by decide) (by decide)).2, ?_⟩
  exact (C6_joinExclusive_contract (node (2 : ℤ) 5 1 null null)
      (node (1 : ℤ) 3 1 null null) (by decide) (by decide)).1.2
    ⟨by decide, by decide, 2, 1, by decide, by decide, by decide⟩

/-- C7: on a tree with unique keys satisfying the invariants, `Choose` and
`RankInOrder` are mutually inverse: the key at position `i` has rank `i`,
and a present key is recovered by choosing its rank. -/
theorem C7_rank_choose_inverse {α : Type} [LinearOrder α] (t : Tree α)
    (hinv : Inv t = true) :
    (∀ i : ℤ, 0 ≤ i → i < Size t →
      ∃ x, Choose t i = some x ∧ RankInOrder t x = (true, i)) ∧
    (∀ k ∈ keys t, RankInOrder t k = (true, rankAux t k) ∧
      Choose t (rankAux t k) = some k) := by
  obtain ⟨hb, ht, hc⟩ := Inv_iff.1 hinv
  constructor
  · intro i hlo hhi
    obtain ⟨x, hcx, hmx, hrx⟩ := chooseAux_rank hb hc hlo hhi
    refine ⟨x, ?_, ?_⟩
    · rw [Choose, if_neg (by rw [Size] at hhi; omega), hcx]
    · rw [RankInOrder, hrx]
      simp only [Prod.mk.injEq]
      refine ⟨?_, by trivial⟩
      simp only [notFound]
      rw [decide_eq_true_eq]
      omega
  · intro k hmem
    obtain ⟨h0, h1, h2⟩ := rankAux_choose hb hc hmem
    refine ⟨?_, ?_⟩
    · rw [RankInOrder]
      simp only [Prod.mk.injEq]
      refine ⟨?_, by trivial⟩
      simp only [notFound]
      rw [decide_eq_true_eq]
      omega
    · rw [Choose, if_neg (by omega), h2]

/-- Witness for C7 on the three-node tree {0, 1, 2}. -/
theorem C7_witness :
    Inv (node (1 : ℤ) 2 3 (node 0 5 1 null null) (node 2 7 1 null null)) = true ∧
      (∃ x, Choose (node (1 : ℤ) 2 3 (node 0 5 1 null null) (node 2 7 1 null null)) 1 =
          some x ∧
        RankInOrder (node (1 : ℤ) 2 3 (node 0 5 1 null null) (node 2 7 1 null null)) x =
          (true, 1)) := by
  refine ⟨by decide, ?_⟩
  exact (C7_rank_choose_inverse
    (node (1 : ℤ) 2 3 (node 0 5 1 null null) (node 2 7 1 null null))
    (by decide)).1 1 (by decide) (by decide)

/-- C8 (amended): when the first tree has unique keys (and both trees
satisfy their invariants), `Intersection` partitions the inputs: the
intersection plus `onlyA` is the multiset of A, the intersection plus
`onlyB` is the multiset of B, the intersection is contained in the multiset
intersection of A and B, and both inputs are emptied. -/
theorem C8_intersection_amended {α : Type} [LinearOrder α] (A B : Tree α)
    (hA : Inv A = true) (hB : InvDup B = true) :
    ((keys (Intersection A B).1.1 : Multiset α) +
        (keys (Intersection A B).1.2.1 : Multiset α) = (keys A : Multiset α)) ∧
    ((keys (Intersection A B).1.1 : Multiset α) +
        (keys (Intersection A B).1.2.2 : Multiset α) = (keys B : Multiset α)) ∧
    ((keys (Intersection A B).1.1 : Multiset α) ≤
        (keys A : Multiset α) ∩ (keys B : Multiset α)) ∧
    (Intersection A B).2.1 = null ∧ (Intersection A B).2.2 = null := by
  obtain ⟨hbA, htA, hcA⟩ := Inv_iff.1 hA
  obtain ⟨A1, B1, C1, D1⟩ :=
    intersectionPrefix_multiset B null null hbA (by simp) (by simp)
  have hdiff2 : ((keys (joinDup null (intersectionPrefix A (B, null, null)).1)) :
      Multiset α) = ((keys (intersectionPrefix A (B, null, null)).1) : Multiset α) := by
    rw [joinDup_keys]
    simp
  have hInter : Intersection A B =
      (((intersectionPrefix A (B, null, null)).2.1,
        (intersectionPrefix A (B, null, null)).2.2,
        joinDup null (intersectionPrefix A (B, null, null)).1), null, null) := rfl
  rw [hInter]
  refine ⟨?_, ?_, ?_, rfl, rfl⟩
  · simpa using A1
  · rw [hdiff2]
    have := B1
    simp only [keys_null] at this
    calc ((keys (intersectionPrefix A (B, null, null)).2.1) : Multiset α) +
          ((keys (intersectionPrefix A (B, null, null)).1) : Multiset α)
        = ((keys (intersectionPrefix A (B, null, null)).1) : Multiset α) +
          ((keys (intersectionPrefix A (B, null, null)).2.1) : Multiset α) := by abel
      _ = (keys B : Multiset α) := by simpa using this
  · have hsubA : ((keys (intersectionPrefix A (B, null, null)).2.1) : Multiset α) ≤
        (keys A : Multiset α) := by
      have := A1
      simp only [keys_null] at this
      calc ((keys (intersectionPrefix A (B, null, null)).2.1) : Multiset α)
          ≤ ((keys (intersectionPrefix A (B, null, null)).2.1) : Multiset α) +
            ((keys (intersectionPrefix A (B, null, null)).2.2) : Multiset α) :=
            Multiset.le_add_right _ _
        _ = (keys A : Multiset α) := by simpa using this
    have hsubB : ((keys (intersectionPrefix A (B, null, null)).2.1) : Multiset α) ≤
        (keys B : Multiset α) := by
      have := B1
      simp only [keys_null] at this
      calc ((keys (intersectionPrefix A (B, null, null)).2.1) : Multiset α)
          ≤ ((keys (intersectionPrefix A (B, null, null)).1) : Multiset α) +
            ((keys (intersectionPrefix A (B, null, null)).2.1) : Multiset α) :=
            Multiset.le_add_left _ _
        _ = (keys B : Multiset α) := by simpa using this
    exact Multiset.le_inter hsubA hsubB

/-- C8 counterexample: with the duplicate-keyed trees A = B = {9, 9} the
`q != nil` slip of `__intersectionPrefix` wipes the intersection tree, and
the claimed identity multiset(inter) + multiset(onlyA) = multiset(A) fails
(the left side is empty while A held two keys). -/
theorem C8_counterexample :
    InvDup (node (9 : ℤ) 1 2 null (node 9 2 1 null null)) = true ∧
    ¬ ((keys (Intersection (node (9 : ℤ) 1 2 null (node 9 2 1 null null))
            (node (9 : ℤ) 1 2 null (node 9 2 1 null null))).1.1 : Multiset ℤ) +
        (keys (Intersection (node (9 : ℤ) 1 2 null (node 9 2 1 null null))
            (node (9 : ℤ) 1 2 null (node 9 2 1 null null))).1.2.1 : Multiset ℤ) =
        (keys (node (9 : ℤ) 1 2 null (node 9 2 1 null null)) : Multiset ℤ)) := by
  have heval : Intersection (node (9 : ℤ) 1 2 null (node 9 2 1 null null))
      (node (9 : ℤ) 1 2 null (node 9 2 1 null null)) =
      ((null, null, null), null, null) := by
    simp [Intersection, intersectionPrefix, removeNode, insertNode, joinDup,
      joinExclusive]
  refine ⟨by decide, ?_⟩
  rw [heval]
  intro hcon
  simp only [keys_null, keys_node, List.append_nil, List.nil_append] at hcon
  have h2 : (0 : Multiset ℤ) = ((9 : ℤ) :: 9 :: [] : List ℤ) := by simpa using hcon
  have h9 : (9 : ℤ) ∈ (0 : Multiset ℤ) := by
    rw [h2]
    simp
  simp at h9

/-- Witness for C8 on the singleton trees A = {1}, B = {1}. -/
theorem C8_witness :
    Inv (node (1 : ℤ) 3 1 null null) = true ∧
      InvDup (node (1 : ℤ) 5 1 null null) = true ∧
      ((keys (Intersection (node (1 : ℤ) 3 1 null null)
            (node (1 : ℤ) 5 1 null null)).1.1 : Multiset ℤ) +
        (keys (Intersection (node (1 : ℤ) 3 1 null null)
            (node (1 : ℤ) 5 1 null null)).1.2.1 : Multiset ℤ) =
        (keys (node (1 : ℤ) 3 1 null null) : Multiset ℤ)) ∧
      (Intersection (node (1 : ℤ) 3 1 null null)
        (node (1 : ℤ) 5 1 null null)).2.1 = null := by
  refine ⟨by decide, by decide, ?_, ?_⟩
  · exact (C8_intersection_amended (node (1 : ℤ) 3 1 null null)
      (node (1 : ℤ) 5 1 null null) (by decide) (by decide)).1
  · exact (C8_intersection_amended (node (1 : ℤ) 3 1 null null)
      (node (1 : ℤ) 5 1 null null) (by decide) (by decide)).2.2.2.1

/-- C4: evaluation of the code at the failing input.  On the tree {0, 1, 2}
(satisfying the invariants), `ExtractRange(0, 1)` must, per its own
documentation, extract the keys at positions 0 and 1.  Instead the source's
`begPos` special case splits position 0 off into the kept tree: the returned
middle holds only [1] and the source keeps [0, 2]. -/
theorem C4_extract_range_zero_eval :
    Inv (node (1 : ℤ) 2 3 (node 0 5 1 null null) (node 2 7 1 null null)) = true ∧
    ExtractRange (node (1 : ℤ) 2 3 (node 0 5 1 null null) (node 2 7 1 null null)) 0 1 =
      some (node 1 2 1 null null, node 0 5 2 null (node 2 7 1 null null)) ∧
    keys (node (1 : ℤ) 2 1 null null) = [1] ∧
    keys (node (0 : ℤ) 5 2 null (node 2 7 1 null null)) = [0, 2] := by
  refine ⟨by decide, ?_, by decide, by decide⟩
  simp [ExtractRange, SplitByPosition, splitPos, JoinExclusive, joinExclusive,
    Size, Max, Min, optLess]

/-- Merged form of the `SplitByPosition` case analysis: the pieces always
concatenate to the source keys and satisfy the count and heap checkers. -/
theorem SplitByPosition_pieces {t : Tree α} {i : ℤ} {a b rest : Tree α}
    (hc : checkCounter t = true) (ht : checkTreap t = true)
    (h : SplitByPosition t i = some ((a, b), rest)) :
    keys a ++ keys b = keys t ∧ checkCounter a = true ∧ checkCounter b = true ∧
      checkTreap a = true ∧ checkTreap b = true := by
  rcases SplitByPosition_some_inv hc ht h with
    ⟨_, hk, hc1, hc2, ht1, ht2, _, _⟩ | ⟨_, ha, hb, _⟩
  · exact ⟨hk, hc1, hc2, ht1, ht2⟩
  · subst ha; subst hb
    exact ⟨by simp, hc, by simp, ht, by simp⟩

theorem checkBSTDup_of_sublist {t1 t2 : Tree α} (hb : checkBSTDup t2 = true)
    (hs : List.Sublist (keys t1) (keys t2)) : checkBSTDup t1 = true := by
  rw [checkBSTDup_iff] at hb ⊢
  exact hb.sublist hs

theorem checkBSTStrict_of_sublist {t1 t2 : Tree α} (hb : checkBSTStrict t2 = true)
    (hs : List.Sublist (keys t1) (keys t2)) : checkBSTStrict t1 = true := by
  rw [checkBSTStrict_iff] at hb ⊢
  exact hb.sublist hs

/-- Everything a successful `ExtractRange` guarantees about its two result
trees, given count- and heap-correct input. -/
theorem ExtractRange_some_facts {t : Tree α} {a b : ℤ} {mid rest : Tree α}
    (hc : checkCounter t = true) (ht : checkTreap t = true)
    (h : ExtractRange t a b = some (mid, rest)) :
    List.Sublist (keys mid) (keys t) ∧ checkCounter mid = true ∧ checkTreap mid = true ∧
      checkCounter rest = true ∧ checkTreap rest = true ∧
      (checkBSTDup t = true → checkBSTDup rest = true) ∧
      (checkBSTStrict t = true → checkBSTStrict rest = true) := by
  rw [ExtractRange] at h
  by_cases hg : a > b ∨ b > countv t - 1
  · rw [if_pos hg] at h
    exact Option.noConfusion h
  · rw [if_neg hg] at h
    cases hs1 : SplitByPosition t b with
    | none => simp only [hs1] at h; exact Option.noConfusion h
    | some p1 =>
      obtain ⟨⟨ta, te⟩, r1⟩ := p1
      simp only [hs1] at h
      cases hs2 : SplitByPosition ta (if a = 0 then 0 else a - 1) with
      | none => simp only [hs2] at h; exact Option.noConfusion h
      | some p2 =>
        obtain ⟨⟨bt, result⟩, r2⟩ := p2
        simp only [hs2] at h
        cases hj : JoinExclusive bt te with
        | none => simp only [hj] at h; exact Option.noConfusion h
        | some pj =>
          obtain ⟨joined, te2⟩ := pj
          simp only [hj] at h
          obtain ⟨hm, hr⟩ : result = mid ∧ joined = rest := by simpa using h
          subst hm; subst hr
          obtain ⟨hk1, hcta, hcte, htta, htte⟩ := SplitByPosition_pieces hc ht hs1
          obtain ⟨hk2, hcbt, hcmid, htbt, htmid⟩ := SplitByPosition_pieces hcta htta hs2
          have hsub_ta : List.Sublist (keys ta) (keys t) :=
            hk1 ▸ List.sublist_append_left _ _
          have hsub_te : List.Sublist (keys te) (keys t) :=
            hk1 ▸ List.sublist_append_right _ _
          have hsub_bt : List.Sublist (keys bt) (keys t) :=
            List.Sublist.trans (hk2 ▸ List.sublist_append_left _ _) hsub_ta
          have hsub_mid : List.Sublist (keys result) (keys t) :=
            List.Sublist.trans (hk2 ▸ List.sublist_append_right _ _) hsub_ta
          obtain ⟨_, hkj, htj, hcj, _, hdupj, hstrj⟩ :=
            JoinExclusive_some_inv hcbt hcte htbt htte hj
          refine ⟨hsub_mid, hcmid, htmid, hcj, htj, ?_, ?_⟩
          · intro hbt
            exact hdupj (checkBSTDup_of_sublist hbt hsub_bt)
              (checkBSTDup_of_sublist hbt hsub_te)
          · intro hbt
            exact hstrj (checkBSTStrict_of_sublist hbt hsub_bt)
              (checkBSTStrict_of_sublist hbt hsub_te)

/-- C1 (amended): every public mutating operation, applied to trees
satisfying the invariants (BST order — strict for the unique-key variant,
relaxed to non-strict on BOTH sides for the duplicate variant — min-heap
priority order with the sentinel maximal, and correct counts), yields trees
satisfying the same invariants.  Fresh priorities are drawn from `uint64`,
hence the bound `pr ≤ maxPrio`. -/
theorem C1_invariant_preservation {α : Type} [LinearOrder α] :
    (∀ (t : Tree α) (k : α) (pr : ℕ), Inv t = true → pr ≤ maxPrio →
      Inv (Insert t k pr).1 = true) ∧
    (∀ (t : Tree α) (k : α) (pr : ℕ), InvDup t = true → pr ≤ maxPrio →
      InvDup (InsertDup t k pr).1 = true) ∧
    (∀ (t : Tree α) (k : α) (pr : ℕ), Inv t = true → pr ≤ maxPrio →
      Inv (SearchOrInsert t k pr).1 = true) ∧
    (∀ (t : Tree α) (k : α), Inv t = true → Inv (Remove t k).1 = true) ∧
    (∀ (t : Tree α) (k : α), InvDup t = true → InvDup (Remove t k).1 = true) ∧
    (∀ (t : Tree α) (i : ℤ) (t2 ret : Tree α), Inv t = true →
      RemoveByPos t i = some (t2, ret) → Inv t2 = true) ∧
    (∀ (t : Tree α) (i : ℤ) (t2 ret : Tree α), InvDup t = true →
      RemoveByPos t i = some (t2, ret) → InvDup t2 = true) ∧
    (∀ (t : Tree α) (k : α), Inv t = true →
      Inv (SplitByKey t k).1.1 = true ∧ Inv (SplitByKey t k).1.2 = true) ∧
    (∀ (t : Tree α) (k : α), InvDup t = true →
      InvDup (SplitByKey t k).1.1 = true ∧ InvDup (SplitByKey t k).1.2 = true) ∧
    (∀ (t : Tree α) (i : ℤ) (a b rest : Tree α), Inv t = true →
      SplitByPosition t i = some ((a, b), rest) → Inv a = true ∧ Inv b = true) ∧
    (∀ (t : Tree α) (i : ℤ) (a b rest : Tree α), InvDup t = true →
      SplitByPosition t i = some ((a, b), rest) → InvDup a = true ∧ InvDup b = true) ∧
    (∀ (ts tg ts2 tg2 : Tree α), Inv ts = true → Inv tg = true →
      JoinExclusive ts tg = some (ts2, tg2) → Inv ts2 = true ∧ Inv tg2 = true) ∧
    (∀ (ts tg ts2 tg2 : Tree α), InvDup ts = true → InvDup tg = true →
      JoinExclusive ts tg = some (ts2, tg2) → InvDup ts2 = true ∧ InvDup tg2 = true) ∧
    (∀ (t rhs : Tree α), InvDup t = true → InvDup rhs = true →
      InvDup (JoinDup t rhs).1 = true ∧ InvDup (JoinDup t rhs).2 = true) ∧
    (∀ (t rhs : Tree α), Inv t = true → InvDup rhs = true →
      Inv (Union t rhs) = true) ∧
    (∀ (A B : Tree α), InvDup A = true → InvDup B = true →
      Inv (Intersection A B).1.1 = true ∧ InvDup (Intersection A B).1.2.1 = true ∧
        InvDup (Intersection A B).1.2.2 = true) ∧
    (∀ (t : Tree α) (a b : ℤ) (mid rest : Tree α), Inv t = true →
      ExtractRange t a b = some (mid, rest) → Inv mid = true ∧ Inv rest = true) ∧
    (∀ (t : Tree α) (a b : ℤ) (mid rest : Tree α), InvDup t = true →
      ExtractRange t a b = some (mid, rest) → InvDup mid = true ∧ InvDup rest = true) ∧
    (∀ t : Tree α, Inv (Clear t) = true) ∧
    (∀ (t o : Tree α), InvDup t = true → InvDup o = true →
      InvDup (Swap t o).1 = true ∧ InvDup (Swap t o).2 = true) := by
  refine ⟨?_, ?_, ?_, ?_, ?_, ?_, ?_, ?_, ?_, ?_, ?_, ?_, ?_, ?_, ?_, ?_, ?_, ?_, ?_, ?_⟩
  · -- Insert
    intro t k pr hinv hpr
    obtain ⟨hb, ht, hc⟩ := Inv_iff.1 hinv
    cases hres : insertNode t k pr with
    | none => rw [Insert, hres]; exact hinv
    | some res =>
      rw [Insert, hres]
      exact Inv_iff.2 ⟨insertNode_bst hb hres, (insertNode_heap ht hpr hres).1,
        (insertNode_count hc hres).1⟩
  · -- InsertDup
    intro t k pr hinv hpr
    obtain ⟨hb, ht, hc⟩ := InvDup_iff.1 hinv
    exact InvDup_iff.2 ⟨insertNodeDup_bst hb, (insertNodeDup_heap ht hpr).1,
      (insertNodeDup_count hc).1⟩
  · -- SearchOrInsert
    intro t k pr hinv hpr
    obtain ⟨hb, ht, hc⟩ := Inv_iff.1 hinv
    cases hres : (searchOrInsertNode t k pr).2.1 with
    | false =>
      obtain ⟨he, _, _⟩ := searchOrInsertNode_false hres
      rw [SearchOrInsert, he]
      exact hinv
    | true =>
      exact Inv_iff.2 ⟨searchOrInsertNode_bst_true hb hres,
        (searchOrInsertNode_heap_true ht hpr hres).1,
        (searchOrInsertNode_count_true hc hres).1⟩
  · -- Remove, strict
    intro t k hinv
    obtain ⟨hb, ht, hc⟩ := Inv_iff.1 hinv
    cases hres : removeNode t k with
    | none => rw [Remove, hres]; exact hinv
    | some p =>
      obtain ⟨t2, ret⟩ := p
      rw [Remove, hres]
      exact Inv_iff.2 ⟨removeNode_bst_strict hb hres, (removeNode_heap ht hres).1,
        (removeNode_count hc hres).1⟩
  · -- Remove, duplicate
    intro t k hinv
    obtain ⟨hb, ht, hc⟩ := InvDup_iff.1 hinv
    cases hres : removeNode t k with
    | none => rw [Remove, hres]; exact hinv
    | some p =>
      obtain ⟨t2, ret⟩ := p
      rw [Remove, hres]
      exact InvDup_iff.2 ⟨removeNode_bst_dup hb hres, (removeNode_heap ht hres).1,
        (removeNode_count hc hres).1⟩
  · -- RemoveByPos, strict
    intro t i t2 ret hinv h
    obtain ⟨hb, ht, hc⟩ := Inv_iff.1 hinv
    rw [RemoveByPos] at h
    by_cases hg : i ≥ Size t
    · rw [if_pos hg] at h; exact Option.noConfusion h
    · rw [if_neg hg] at h
      obtain ⟨hsub, _, _, _, _⟩ := removePos_keys h
      exact Inv_iff.2 ⟨checkBSTStrict_of_sublist hb hsub, (removePos_heap ht h).1,
        (removePos_count hc h).1⟩
  · -- RemoveByPos, duplicate
    intro t i t2 ret hinv h
    obtain ⟨hb, ht, hc⟩ := InvDup_iff.1 hinv
    rw [RemoveByPos] at h
    by_cases hg : i ≥ Size t
    · rw [if_pos hg] at h; exact Option.noConfusion h
    · rw [if_neg hg] at h
      obtain ⟨hsub, _, _, _, _⟩ := removePos_keys h
      exact InvDup_iff.2 ⟨checkBSTDup_of_sublist hb hsub, (removePos_heap ht h).1,
        (removePos_count hc h).1⟩
  · -- SplitByKey, strict
    intro t k hinv
    obtain ⟨hb, ht, hc⟩ := Inv_iff.1 hinv
    obtain ⟨hk1, hk2⟩ := splitByKeyDup_keys (k := k) (strict_imp_dup hb)
    obtain ⟨hc1, hc2, _⟩ := splitByKeyDup_count (k := k) hc
    obtain ⟨ht1, ht2, _, _⟩ := splitByKeyDup_heap (k := k) ht
    have hp := checkBSTStrict_iff.1 hb
    constructor
    · refine Inv_iff.2 ⟨?_, ht1, hc1⟩
      rw [checkBSTStrict_iff]
      show ((keys (SplitByKey t k).1.1)).Pairwise (· < ·)
      rw [show (SplitByKey t k).1.1 = (splitByKeyDup t k).1 from rfl, hk1]
      exact hp.filter _
    · refine Inv_iff.2 ⟨?_, ht2, hc2⟩
      rw [checkBSTStrict_iff]
      rw [show (SplitByKey t k).1.2 = (splitByKeyDup t k).2 from rfl, hk2]
      exact hp.filter _
  · -- SplitByKey, duplicate
    intro t k hinv
    obtain ⟨hb, ht, hc⟩ := InvDup_iff.1 hinv
    obtain ⟨hk1, hk2⟩ := splitByKeyDup_keys (k := k) hb
    obtain ⟨hc1, hc2, _⟩ := splitByKeyDup_count (k := k) hc
    obtain ⟨ht1, ht2, _, _⟩ := splitByKeyDup_heap (k := k) ht
    have hp := checkBSTDup_iff.1 hb
    constructor
    · refine InvDup_iff.2 ⟨?_, ht1, hc1⟩
      rw [checkBSTDup_iff]
      rw [show (SplitByKey t k).1.1 = (splitByKeyDup t k).1 from rfl, hk1]
      exact hp.filter _
    · refine InvDup_iff.2 ⟨?_, ht2, hc2⟩
      rw [checkBSTDup_iff]
      rw [show (SplitByKey t k).1.2 = (splitByKeyDup t k).2 from rfl, hk2]
      exact hp.filter _
  · -- SplitByPosition, strict
    intro t i a b rest hinv h
    obtain ⟨hb, ht, hc⟩ := Inv_iff.1 hinv
    obtain ⟨hk, hc1, hc2, ht1, ht2⟩ := SplitByPosition_pieces hc ht h
    have hsa : List.Sublist (keys a) (keys t) := hk ▸ List.sublist_append_left _ _
    have hsb : List.Sublist (keys b) (keys t) := hk ▸ List.sublist_append_right _ _
    exact ⟨Inv_iff.2 ⟨checkBSTStrict_of_sublist hb hsa, ht1, hc1⟩,
      Inv_iff.2 ⟨checkBSTStrict_of_sublist hb hsb, ht2, hc2⟩⟩
  · -- SplitByPosition, duplicate
    intro t i a b rest hinv h
    obtain ⟨hb, ht, hc⟩ := InvDup_iff.1 hinv
    obtain ⟨hk, hc1, hc2, ht1, ht2⟩ := SplitByPosition_pieces hc ht h
    have hsa : List.Sublist (keys a) (keys t) := hk ▸ List.sublist_append_left _ _
    have hsb : List.Sublist (keys b) (keys t) := hk ▸ List.sublist_append_right _ _
    exact ⟨InvDup_iff.2 ⟨checkBSTDup_of_sublist hb hsa, ht1, hc1⟩,
      InvDup_iff.2 ⟨checkBSTDup_of_sublist hb hsb, ht2, hc2⟩⟩
  · -- JoinExclusive, strict
    intro ts tg ts2 tg2 hi1 hi2 h
    obtain ⟨hb1, ht1, hc1⟩ := Inv_iff.1 hi1
    obtain ⟨hb2, ht2, hc2⟩ := Inv_iff.1 hi2
    obtain ⟨hnull, _, htj, hcj, _, _, hstr⟩ := JoinExclusive_some_inv hc1 hc2 ht1 ht2 h
    subst hnull
    exact ⟨Inv_iff.2 ⟨hstr hb1 hb2, htj, hcj⟩, by simp⟩
  · -- JoinExclusive, duplicate
    intro ts tg ts2 tg2 hi1 hi2 h
    obtain ⟨hb1, ht1, hc1⟩ := InvDup_iff.1 hi1
    obtain ⟨hb2, ht2, hc2⟩ := InvDup_iff.1 hi2
    obtain ⟨hnull, _, htj, hcj, _, hdup, _⟩ := JoinExclusive_some_inv hc1 hc2 ht1 ht2 h
    subst hnull
    exact ⟨InvDup_iff.2 ⟨hdup hb1 hb2, htj, hcj⟩, by simp⟩
  · -- JoinDup
    intro t rhs hi1 hi2
    obtain ⟨hb1, ht1, hc1⟩ := InvDup_iff.1 hi1
    obtain ⟨_, ht2, _⟩ := InvDup_iff.1 hi2
    obtain ⟨ha, hbx, hcx⟩ := joinDup_inv ht2 t hb1 ht1 hc1
    exact ⟨InvDup_iff.2 ⟨ha, hbx, hcx⟩, by simp [JoinDup]⟩
  · -- Union
    intro t rhs hi1 hi2
    obtain ⟨hb1, ht1, hc1⟩ := Inv_iff.1 hi1
    obtain ⟨_, ht2, _⟩ := InvDup_iff.1 hi2
    obtain ⟨ha, hbx, hcx⟩ := unionAux_inv ht2 hb1 ht1 hc1
    exact Inv_iff.2 ⟨ha, hbx, hcx⟩
  · -- Intersection
    intro A B hiA hiB
    obtain ⟨hbA, htA, hcA⟩ := InvDup_iff.1 hiA
    obtain ⟨hbB, htB, hcB⟩ := InvDup_iff.1 hiB
    obtain ⟨⟨a1, a2, a3⟩, ⟨a4, a5, a6⟩, ⟨a7, a8, a9⟩⟩ :=
      intersectionPrefix_inv htA B null null
        hbB htB hcB (by simp) (by simp) (by simp) (by simp) (by simp) (by simp)
    obtain ⟨d1, d2, d3⟩ := joinDup_inv a2 null (by simp) (by simp) (by simp)
    exact ⟨Inv_iff.2 ⟨a4, a5, a6⟩, InvDup_iff.2 ⟨a7, a8, a9⟩,
      InvDup_iff.2 ⟨d1, d2, d3⟩⟩
  · -- ExtractRange, strict
    intro t a b mid rest hinv h
    obtain ⟨hb, ht, hc⟩ := Inv_iff.1 hinv
    obtain ⟨hsub, hcm, htm, hcr, htr, _, hstr⟩ := ExtractRange_some_facts hc ht h
    exact ⟨Inv_iff.2 ⟨checkBSTStrict_of_sublist hb hsub, htm, hcm⟩,
      Inv_iff.2 ⟨hstr hb, htr, hcr⟩⟩
  · -- ExtractRange, duplicate
    intro t a b mid rest hinv h
    obtain ⟨hb, ht, hc⟩ := InvDup_iff.1 hinv
    obtain ⟨hsub, hcm, htm, hcr, htr, hdup, _⟩ := ExtractRange_some_facts hc ht h
    exact ⟨InvDup_iff.2 ⟨checkBSTDup_of_sublist hb hsub, htm, hcm⟩,
      InvDup_iff.2 ⟨hdup hb, htr, hcr⟩⟩
  · -- Clear
    intro t
    simp [Clear]
  · -- Swap
    intro t o hi1 hi2
    exact ⟨hi2, hi1⟩

/-- C1 counterexample: the claim's BST condition for the duplicate variant
keeps the strict requirement on the right.  A duplicate insertion of the key
already at the root places the equal key in the right subtree, so the
claimed per-node condition fails on the resulting tree even though the input
satisfied the duplicate-variant invariants. -/
theorem C1_counterexample :
    InvDup (node (0 : ℤ) 5 1 null null) = true ∧
    checkBSTDupClaimed (node (0 : ℤ) 5 1 null null) = true ∧
    checkBSTDupClaimed (InsertDup (node (0 : ℤ) 5 1 null null) 0 7).1 = false := by
  decide

/-- Witness for C1: the `Insert` conjunct applied to the singleton tree
{5} with the fresh key 7. -/
theorem C1_witness :
    Inv (node (5 : ℤ) 3 1 null null) = true ∧ (10 : ℕ) ≤ maxPrio ∧
      Inv (Insert (node (5 : ℤ) 3 1 null null) 7 10).1 = true := by
  refine ⟨by decide, by decide, ?_⟩
  exact C1_invariant_preservation.1 (node (5 : ℤ) 3 1 null null) 7 10
    (by decide) (by decide)

end Treaps
